import Mathlib

/-!
# generate-context-availability: a shallow embedding

The development follows `scripts/generate-context-availability/main.go`.

Modelling decisions.

* A Go `string` is modelled as `Str := List Char`, the sequence of its code points
  (the text is taken to be valid UTF-8).  Go compares strings byte by byte; on valid
  UTF-8 this is the order of the code point sequences, which is the lexicographic order
  of `List Char`.
* The parsed markdown document is the ordered sequence of its top-level blocks
  (`root.FirstChild()`, then `NextSibling()`), each a heading, a table or something else.
  A table is the sequence of its children, a row the sequence of its children.
* Parts of the Go standard library that are tables or external tools are fields of `Lib`:
  the Unicode lower-case table above ASCII, the HTML entity decoder, and the rendering
  of the buffer followed by `format.Source`.
* The `io.Writer` is a state of an arbitrary type with a `write` operation.
* The debug logger `dbg` has no effect on the result and is left out.
-/

namespace ContextAvailability

/-- Text: the code points of a Go string. -/
abbrev Str := List Char

/-! ## Parsed document -/

/-- Child of a table row: a `TableCell` with its text, or any other node. -/
inductive RowChild where
  | cell (text : Str)
  | other
  deriving DecidableEq, Repr

/-- Child of a table: a `TableRow` with its children, or any other node
(the `TableHeader` for example). -/
inductive TableChild where
  | row (children : List RowChild)
  | other
  deriving DecidableEq, Repr

/-- Table node `extast.Table`. -/
structure Table where
  children : List TableChild
  deriving DecidableEq, Repr

/-- Top-level block of the document. -/
inductive Block where
  | heading (level : Int) (text : Str)
  | table (t : Table)
  | other
  deriving DecidableEq, Repr

/-- Text of the heading that opens the section. -/
def targetHeading : Str := "Context availability".toList

/-- Directive that ends the table and that no cell may contain. -/
def elseDirective : Str := "\x7b% else %\x7d".toList

/-- Condition of the first loop: `h.Level == 3 && bytes.Equal(h.Text(src), target)`. -/
def isTargetHeading : Block → Bool
  | .heading level text => level == 3 && text == targetHeading
  | _ => false

/-- First loop of `parseContextAvailabilityTable`: the siblings after the first
target heading; nothing is left when there is no such heading. -/
def skipToSection : List Block → List Block
  | [] => []
  | b :: rest => if isTargetHeading b then rest else skipToSection rest

/-- Second loop of `parseContextAvailabilityTable`: stop with failure at a level-3 heading,
stop with the table at a table. -/
def scanSection : List Block → Option Table
  | [] => none
  | .heading level _ :: rest => if level == 3 then none else scanSection rest
  | .table t :: _ => some t
  | .other :: rest => scanSection rest

/-- Section locator. -/
def parseContextAvailabilityTable (src : List Block) : Option Table :=
  scanSection (skipToSection src)

/-- No block of the run is a level-3 heading or a table. -/
def Plain (mid : List Block) : Prop :=
  ∀ b ∈ mid, (∀ text, b ≠ .heading 3 text) ∧ (∀ t, b ≠ .table t)

/-- Texts of the `TableCell` children of a row, in column order. -/
def cells : List RowChild → List Str
  | [] => []
  | .cell text :: rest => text :: cells rest
  | .other :: rest => cells rest

/-! ## Standard library -/

/-- Case entry `case key: return contexts, specialFunctions` written to the buffer. -/
structure CaseEntry where
  key : Str
  contexts : List Str
  specialFunctions : List Str
  deriving DecidableEq, Repr

/-- Content of the buffer when it is handed to the formatter: the case entries in the
order they were written, the map `funcs`, and the sorted keys. -/
structure Artifact where
  cases : List CaseEntry
  funcs : List (Str × List Str)
  keys : List Str
  deriving DecidableEq, Repr

/-- Library parts that are taken as given. -/
structure Lib where
  /-- Lower-case mapping `unicode.To(unicode.LowerCase, r)` for `r` above ASCII. -/
  lowerTable : Char → Char
  /-- Result of `html.UnescapeString` on a text that contains `&`. -/
  unescapeEntities : Str → Str
  /-- Rendering of the buffer by `fmt` followed by `format.Source`;
  `none` when the formatter reports an error. -/
  formatSource : Artifact → Option Str

/-- White space in the sense of `unicode.IsSpace`. -/
def isSpace (c : Char) : Bool :=
  let n := c.toNat
  n == 0x20 || (0x09 ≤ n && n ≤ 0x0D) || n == 0x85 || n == 0xA0 || n == 0x1680 ||
    (0x2000 ≤ n && n ≤ 0x200A) || n == 0x2028 || n == 0x2029 || n == 0x202F ||
    n == 0x205F || n == 0x3000

/-- Go `strings.TrimSpace`: leading and trailing white space removed. -/
def trimSpace (s : Str) : Str :=
  ((s.dropWhile isSpace).reverse.dropWhile isSpace).reverse

/-- Go `unicode.ToLower`: the ASCII letters are handled directly, other code points
through the case table. -/
def toLowerRune (L : Lib) (c : Char) : Char :=
  if c.toNat ≤ 0x7F then
    if 0x41 ≤ c.toNat ∧ c.toNat ≤ 0x5A then Char.ofNat (c.toNat + 0x20) else c
  else L.lowerTable c

/-- Go `strings.ToLower`. -/
def toLower (L : Lib) (s : Str) : Str := s.map (toLowerRune L)

/-- Go `strings.Split(text, ",")`: the pieces between the commas; a text with `n` commas
has `n + 1` pieces. -/
def splitComma : Str → List Str
  | [] => [[]]
  | c :: rest =>
    if c = ',' then [] :: splitComma rest
    else
      match splitComma rest with
      | [] => [[c]]
      | piece :: pieces => (c :: piece) :: pieces

/-- Go `sort.Strings`: the ascending rearrangement of the sequence. -/
def sortStrings (ss : List Str) : List Str :=
  List.insertionSort (fun a b : Str => a ≤ b) ss

/-- Go `strings.HasPrefix`-like test used by `containsSub`. -/
def startsWith : Str → Str → Bool
  | _, [] => true
  | [], _ :: _ => false
  | c :: s, d :: sub => c == d && startsWith s sub

/-- Go `strings.Contains(s, sub)`. -/
def containsSub : Str → Str → Bool
  | [], sub => startsWith [] sub
  | c :: s, sub => startsWith (c :: s) sub || containsSub s sub

/-- Length of the match of `reReplaceholder`, the regular expression `{%[^%]+%}`,
at the start of the text. After `{%` the class `[^%]+` takes the run of characters up to
the next `%`, which must be non-empty and followed by `%}`. -/
def matchPlaceholder : Str → Option Nat
  | '{' :: '%' :: rest =>
    let body := rest.takeWhile (fun c => c != '%')
    match body, rest.dropWhile (fun c => c != '%') with
    | _ :: _, '%' :: '}' :: _ => some (body.length + 4)
    | _, _ => none
  | _ => none

/-- Worker of `ReplaceAllString`: `skip` is the number of characters of the current match
that are still to be dropped. -/
def replaceFrom : Nat → Str → Str
  | _, [] => []
  | skip + 1, _ :: rest => replaceFrom skip rest
  | 0, c :: rest =>
    match matchPlaceholder (c :: rest) with
    | some n => replaceFrom (n - 1) rest
    | none => c :: replaceFrom 0 rest

/-- Go `reReplaceholder.ReplaceAllString(s, "")`: the leftmost matches, which do not
overlap, are removed. -/
def replacePlaceholders (s : Str) : Str := replaceFrom 0 s

/-- Go `html.UnescapeString`: a text without `&` is returned as it is. -/
def unescapeString (L : Lib) (s : Str) : Str :=
  if s.contains '&' then L.unescapeEntities s else s

/-! ## The generator -/

/-- Errors returned by `generate`. -/
inductive GenError where
  /-- No "Context availability" table was found. -/
  | sectionNotFound
  /-- Row with the given cells does not have three cells. -/
  | malformedRow (cs : List Str)
  /-- Cell contains the else directive. -/
  | unsupportedDirective (cell : Str)
  /-- Failure of `format.Source`. -/
  | formatError
  /-- Failure of `out.Write`. -/
  | writeError
  deriving DecidableEq, Repr

/-- List normalizer `split`. -/
def split (L : Lib) (text : Str) : List Str :=
  let text := trimSpace text
  if text = [] then []
  else sortStrings ((splitComma text).map (fun s => toLower L (trimSpace s)))

/-- Cell sanitizer `stripAndUnescape`. -/
def stripAndUnescape (L : Lib) (s : Str) : Except GenError Str :=
  if containsSub s elseDirective then .error (.unsupportedDirective s)
  else .ok (unescapeString L (replacePlaceholders s))

/-- Loop `for i, c := range cs` of `generate`: every cell is sanitized in column order,
the first error is returned. -/
def sanitizeCells (L : Lib) : List Str → Except GenError (List Str)
  | [] => .ok []
  | c :: rest =>
    match stripAndUnescape L c with
    | .error e => .error e
    | .ok c1 =>
      match sanitizeCells L rest with
      | .error e => .error e
      | .ok rest1 => .ok (c1 :: rest1)

/-- Statement `funcs[s] = append(funcs[s], key)` on the map `funcs`, kept as an
association list with one entry per function name. -/
def appendKey (funcs : List (Str × List Str)) (s key : Str) : List (Str × List Str) :=
  match funcs with
  | [] => [(s, [key])]
  | (f, ks) :: rest =>
    if f = s then (f, ks ++ [key]) :: rest else (f, ks) :: appendKey rest s key

/-- Value `funcs[s]` of the map; the empty sequence for a missing name. -/
def lookupFunc (funcs : List (Str × List Str)) (s : Str) : List Str :=
  match funcs with
  | [] => []
  | (f, ks) :: rest => if f = s then ks else lookupFunc rest s

/-- Accumulators of the row loop: the case entries written to the buffer, the map
`funcs` and the slice `keys`. -/
structure Acc where
  cases : List CaseEntry
  funcs : List (Str × List Str)
  keys : List Str
  deriving DecidableEq, Repr

/-- Accumulators before the first row. -/
def Acc.empty : Acc := ⟨[], [], []⟩

/-- Body of the row loop for an accepted row. -/
def Acc.addRow (acc : Acc) (key : Str) (ctx sp : List Str) : Acc :=
  { cases := acc.cases ++ [⟨key, ctx, sp⟩]
    funcs := sp.foldl (fun funcs s => appendKey funcs s key) acc.funcs
    keys := acc.keys ++ [key] }

/-- Row loop of `generate`. -/
def rowLoop (L : Lib) : List TableChild → Acc → Except GenError Acc
  | [], acc => .ok acc
  | .other :: rest, acc => rowLoop L rest acc
  | .row r :: rest, acc =>
    let cs := cells r
    if cs.length ≠ 3 then .error (.malformedRow cs)
    else if cs.head? = some elseDirective then .ok acc
    else
      match sanitizeCells L cs with
      | .error e => .error e
      | .ok cs1 =>
        let key := cs1.getD 0 []
        if key = [] then rowLoop L rest acc
        else rowLoop L rest (acc.addRow key (split L (cs1.getD 1 [])) (split L (cs1.getD 2 [])))

/-- Buffer content at the call of `format.Source`: the keys are sorted last. -/
def Acc.toArtifact (acc : Acc) : Artifact :=
  { cases := acc.cases, funcs := acc.funcs, keys := sortStrings acc.keys }

/-- Part of `generate` between the section lookup and the formatter: the three
structures built from the table. -/
def buildIndex (L : Lib) (t : Table) : Except GenError Artifact :=
  match rowLoop L t.children Acc.empty with
  | .error e => .error e
  | .ok acc => .ok acc.toArtifact

/-- Function `generate`: the result and the state of the writer after the call. -/
def generate {ω : Type} (L : Lib) (write : ω → Str → ω × Bool) (src : List Block)
    (out : ω) : Except GenError Unit × ω :=
  match parseContextAvailabilityTable src with
  | none => (.error .sectionNotFound, out)
  | some t =>
    match buildIndex L t with
    | .error e => (.error e, out)
    | .ok art =>
      match L.formatSource art with
      | none => (.error .formatError, out)
      | some formatted =>
        match write out formatted with
        | (out1, true) => (.ok (), out1)
        | (out1, false) => (.error .writeError, out1)

/-- Cell texts of a table child when it is a row. -/
def rowCells : TableChild → Option (List Str)
  | .row r => some (cells r)
  | .other => none

/-- Rows the loop visits when it meets no error: the cell texts of the `TableRow`
children that stand before the first row whose first cell is the else directive, in
table order. -/
def visitedRows (children : List TableChild) : List (List Str) :=
  (children.filterMap rowCells).takeWhile (fun cs => cs.head? != some elseDirective)

/-- Test `key != ""` on the sanitized cells `r` of a row. -/
def hasKey (r : List Str) : Bool := r.getD 0 [] != []

/-- Case entry of a row with sanitized cells `r`. -/
def recordOf (L : Lib) (r : List Str) : CaseEntry :=
  ⟨r.getD 0 [], split L (r.getD 1 []), split L (r.getD 2 [])⟩

/-- Rows of a table as the markdown parser builds it: every body row is padded or cut to
the number of columns of the delimiter row, so all rows of a table have the same number
of cells. -/
def UniformRows (children : List TableChild) : Prop :=
  ∀ c1 ∈ children, ∀ c2 ∈ children, ∀ cs1 cs2,
    rowCells c1 = some cs1 → rowCells c2 = some cs2 → cs1.length = cs2.length

/-- Document whose table has two columns and three body rows. -/
def twoColumnDoc : List Block :=
  [.heading 3 targetHeading,
    .table ⟨[.other,
      .row [.cell "x".toList, .cell "y".toList],
      .row [.cell "p".toList, .cell "q".toList],
      .row [.cell "r".toList, .cell "s".toList]]⟩]

/-- Document with a level-3 heading between two target headings. -/
def repeatedHeadingDoc : List Block :=
  [.heading 3 targetHeading, .heading 3 "Other".toList, .heading 3 targetHeading,
    .table ⟨[.other, .row [.cell "on".toList, .cell "github".toList, .cell [] ]]⟩]

/-- Cell with an embedded conditional. -/
def embeddedElseCell : Str :=
  "\x7b% if x %\x7da\x7b% else %\x7db\x7b% endif %\x7d".toList

/-- Document whose table has a cell with an embedded conditional. -/
def embeddedElseDoc : List Block :=
  [.heading 3 targetHeading,
    .table ⟨[.other, .row [.cell "on".toList, .cell embeddedElseCell, .cell []]]⟩]

/-- Document whose table has a sentinel row followed by a row that would be accepted and
by a row with an embedded conditional. -/
def sentinelDoc : List Block :=
  [.heading 3 targetHeading,
    .table ⟨[.other,
      .row [.cell "on".toList, .cell "github".toList, .cell []],
      .row [.cell elseDirective, .cell [], .cell []],
      .row [.cell "env".toList, .cell "github".toList, .cell "always".toList],
      .row [.cell "k".toList, .cell ("a".toList ++ elseDirective), .cell []]]⟩]

/-- Document `sentinelDoc` cut before the sentinel row. -/
def sentinelCutDoc : List Block :=
  [.heading 3 targetHeading,
    .table ⟨[.other, .row [.cell "on".toList, .cell "github".toList, .cell []]]⟩]

/-- Row of the documentation for `jobs.<job_id>.continue-on-error`. -/
def continueOnErrorRow : List RowChild :=
  [.cell "jobs.<job_id>.continue-on-error".toList,
    .cell "github, needs, strategy, matrix, vars".toList, .cell []]

/-- Normalized form of a comma-separated piece: trimmed, then lower-cased. -/
def normPiece (L : Lib) (s : Str) : Str := toLower L (trimSpace s)

/-- Table with one row that names a context twice and a special function twice. -/
def duplicateTokenTable : Table :=
  ⟨[.row [.cell "on".toList, .cell "needs, github, needs".toList,
    .cell "always, always".toList]]⟩

/-- Sanitized text of a cell in which the else directive does not occur. -/
def clean (L : Lib) (c : Str) : Str := unescapeString L (replacePlaceholders c)

/-- Accepted rows of a table on which the row loop succeeds: the sanitized cells of the
visited rows whose key is not empty, in table order. -/
def acceptedRows (L : Lib) (children : List TableChild) : List (List Str) :=
  ((visitedRows children).map (fun cs => cs.map (clean L))).filter hasKey

/-- Key of a row with sanitized cells `r`. -/
def keyOf (r : List Str) : Str := r.getD 0 []

/-- Body of the row loop for an accepted row with sanitized cells `r`. -/
def Acc.addRecord (L : Lib) (acc : Acc) (r : List Str) : Acc :=
  acc.addRow (r.getD 0 []) (split L (r.getD 1 [])) (split L (r.getD 2 []))

/-- Evaluation of the `switch` of the emitted function on cases with pairwise distinct
keys: the case whose key equals the argument, and `default`, two nil slices, when there
is none. -/
def switchCases : List CaseEntry → Str → List Str × List Str
  | [], _ => ([], [])
  | e :: rest, key =>
    if e.key = key then (e.contexts, e.specialFunctions) else switchCases rest key

/-- Function `ContextAvailability` of the emitted source. Go rejects a `switch` in which
two cases have the same constant, so the function exists only when the keys of the case
entries are pairwise distinct; `none` stands for a source that does not compile. -/
def contextAvailability (cases : List CaseEntry) (key : Str) :
    Option (List Str × List Str) :=
  if (cases.map (fun e => e.key)).Nodup then some (switchCases cases key) else none

/-- Keys of the map `funcs`. -/
def funcNames (funcs : List (Str × List Str)) : List Str := funcs.map Prod.fst

/-- Keys that a case entry adds to the reverse-index sequence of the function `q`: its
key, once for each occurrence of `q` in its special functions. -/
def keysFor (q : Str) (e : CaseEntry) : List Str :=
  List.replicate (e.specialFunctions.count q) e.key

/-- Document whose table has, after an accepted row, a row with an empty first cell and
an embedded conditional in its second cell. -/
def emptyKeyElseDoc : List Block :=
  [.heading 3 targetHeading,
    .table ⟨[.other,
      .row [.cell "on".toList, .cell "github".toList, .cell []],
      .row [.cell [], .cell embeddedElseCell, .cell []]]⟩]

/-- Document whose table has a row with an empty first cell between two accepted rows. -/
def emptyKeyDoc : List Block :=
  [.heading 3 targetHeading,
    .table ⟨[.other,
      .row [.cell "on".toList, .cell "github".toList, .cell []],
      .row [.cell [], .cell "needs".toList, .cell "always".toList],
      .row [.cell "env".toList, .cell "github".toList, .cell "always".toList]]⟩]

/-- Document `emptyKeyDoc` without the row with an empty first cell. -/
def emptyKeyRemovedDoc : List Block :=
  [.heading 3 targetHeading,
    .table ⟨[.other,
      .row [.cell "on".toList, .cell "github".toList, .cell []],
      .row [.cell "env".toList, .cell "github".toList, .cell "always".toList]]⟩]

/-- Test `key != ""` of the row loop. -/
def nonEmptyKey (k : Str) : Bool := k != []

/-- Keys of the accepted rows: the sanitized first cells of the visited rows that are
not the empty string, as the sanitizer returns them, in table order. -/
def acceptedKeys (L : Lib) (children : List TableChild) : List Str :=
  ((visitedRows children).map (fun cs => clean L (cs.getD 0 []))).filter nonEmptyKey

/-- Table whose first cells keep white space once the placeholders are removed. -/
def untrimmedKeyTable : Table :=
  ⟨[.other,
    .row [.cell "\x7b% a %\x7d on".toList, .cell "github".toList, .cell []],
    .row [.cell "\x7b% a %\x7d \x7b% b %\x7d".toList, .cell "needs".toList, .cell []]]⟩

/-- Table with two rows that allow the function `always`, the key `run` before the key
`env`. -/
def orderTable : Table :=
  ⟨[.other,
    .row [.cell "run".toList, .cell "github".toList, .cell "always".toList],
    .row [.cell "env".toList, .cell "github".toList, .cell "always".toList]]⟩

/-- Table `orderTable` with its two rows exchanged. -/
def orderTableSwapped : Table :=
  ⟨[.other,
    .row [.cell "env".toList, .cell "github".toList, .cell "always".toList],
    .row [.cell "run".toList, .cell "github".toList, .cell "always".toList]]⟩

/-- Table with two accepted rows that have the same key. -/
def duplicateKeyTable : Table :=
  ⟨[.other,
    .row [.cell "on".toList, .cell "github".toList, .cell "always".toList],
    .row [.cell "on".toList, .cell "needs".toList, .cell "always".toList]]⟩

/-- Errors of the extraction, as opposed to the errors of the formatter and of the
writer. -/
def isExtractionError : GenError → Bool
  | .sectionNotFound => true
  | .malformedRow _ => true
  | .unsupportedDirective _ => true
  | .formatError => false
  | .writeError => false

/-- Opening marker of a placeholder. -/
def openMarker : Str := "\x7b%".toList

/-- Closing marker of a placeholder. -/
def closeMarker : Str := "%\x7d".toList

/-- Text in which a placeholder span occurs: the opening marker, one or more characters
other than `%`, the closing marker. -/
def HasSpan (s : Str) : Prop :=
  ∃ a body b, body ≠ [] ∧ '%' ∉ body ∧ s = a ++ openMarker ++ body ++ closeMarker ++ b

/-- Text that starts with a placeholder span: the opening marker, one or more characters
other than `%`, the closing marker. -/
def StartsWithSpan (s : Str) : Prop :=
  ∃ body rest, body ≠ [] ∧ '%' ∉ body ∧ s = openMarker ++ body ++ closeMarker ++ rest

/-- Text made of plain pieces and placeholder spans in turn: each pair is a plain piece
and the body of the span that follows it; `last` is the plain piece after the last
span. -/
def renderSegments : List (Str × Str) → Str → Str
  | [], last => last
  | (piece, body) :: rest, last =>
    piece ++ openMarker ++ body ++ closeMarker ++ renderSegments rest last

/-- Plain pieces of a text made of plain pieces and placeholder spans. -/
def plainOfSegments : List (Str × Str) → Str → Str
  | [], last => last
  | (piece, _) :: rest, last => piece ++ plainOfSegments rest last

/-- Cell with a placeholder inside the opening marker of another. -/
def nestedPlaceholderCell : Str := "\x7b%\x7b% a %\x7d b %\x7d".toList

/-! ## A library instance for evaluation on ASCII text -/

/-- Library instance that agrees with Go on ASCII text without `&`; the rendering is
reduced to the concatenation of the sorted keys. -/
def asciiLib : Lib :=
  { lowerTable := fun c => c
    unescapeEntities := fun s => s
    formatSource := fun art => some art.keys.flatten }

/-- Writer that records every chunk and never fails. -/
def recordWrite (out : List Str) (chunk : Str) : List Str × Bool := (out ++ [chunk], true)


/-! # Theorems -/

/-! ## Section locator -/

theorem isTargetHeading_iff (b : Block) :
    isTargetHeading b = true ↔ b = .heading 3 targetHeading := by
  cases b <;> simp [isTargetHeading]

theorem skipToSection_of_not_mem {src : List Block}
    (h : Block.heading 3 targetHeading ∉ src) : skipToSection src = [] := by
  induction src with
  | nil => rfl
  | cons b rest ih =>
    simp only [List.mem_cons, not_or] at h
    have hb : isTargetHeading b = false := by
      cases hb : isTargetHeading b
      · rfl
      · exact absurd ((isTargetHeading_iff b).1 hb).symm h.1
    simp [skipToSection, hb, ih h.2]

theorem skipToSection_append {pre rest : List Block}
    (h : Block.heading 3 targetHeading ∉ pre) :
    skipToSection (pre ++ .heading 3 targetHeading :: rest) = rest := by
  induction pre with
  | nil => simp [skipToSection, isTargetHeading]
  | cons b pre ih =>
    simp only [List.mem_cons, not_or] at h
    have hb : isTargetHeading b = false := by
      cases hb : isTargetHeading b
      · rfl
      · exact absurd ((isTargetHeading_iff b).1 hb).symm h.1
    simp [skipToSection, hb, ih h.2]

theorem exists_first_target {src : List Block}
    (h : Block.heading 3 targetHeading ∈ src) :
    ∃ pre rest, src = pre ++ .heading 3 targetHeading :: rest ∧
      Block.heading 3 targetHeading ∉ pre := by
  induction src with
  | nil => simp at h
  | cons b src ih =>
    by_cases hb : b = .heading 3 targetHeading
    · exact ⟨[], src, by simp [hb], by simp⟩
    · have h2 : Block.heading 3 targetHeading ∈ src := by
        rcases List.mem_cons.1 h with h1 | h1
        · exact absurd h1.symm hb
        · exact h1
      obtain ⟨pre, rest, e, hp⟩ := ih h2
      refine ⟨b :: pre, rest, by simp [e], ?_⟩
      simp only [List.mem_cons, not_or]
      exact ⟨fun e1 => hb e1.symm, hp⟩

theorem plain_nil : Plain [] := by
  intro b hb; simp at hb

theorem plain_cons {b : Block} {mid : List Block} :
    Plain (b :: mid) ↔ ((∀ text, b ≠ .heading 3 text) ∧ (∀ t, b ≠ .table t)) ∧ Plain mid := by
  simp [Plain]

theorem scanSection_heading3 (text : Str) (rest : List Block) :
    scanSection (.heading 3 text :: rest) = none := by
  simp [scanSection]

theorem scanSection_heading_ne {level : Int} (hl : level ≠ 3) (text : Str)
    (rest : List Block) : scanSection (.heading level text :: rest) = scanSection rest := by
  simp [scanSection, hl]

theorem scanSection_table (t : Table) (rest : List Block) :
    scanSection (.table t :: rest) = some t := rfl

theorem scanSection_other (rest : List Block) :
    scanSection (.other :: rest) = scanSection rest := rfl

theorem scanSection_eq_some_iff (rest : List Block) (T : Table) :
    scanSection rest = some T ↔
      ∃ mid post, rest = mid ++ .table T :: post ∧ Plain mid := by
  induction rest with
  | nil => simp [scanSection]
  | cons b rest ih =>
    cases b with
    | heading level text =>
      by_cases hl : level = 3
      · subst hl
        rw [scanSection_heading3]
        constructor
        · intro h; cases h
        · rintro ⟨mid, post, e, hm⟩
          cases mid with
          | nil => simp at e
          | cons m mid =>
            simp only [List.cons_append, List.cons.injEq] at e
            exact absurd e.1.symm ((plain_cons.1 hm).1.1 text)
      · rw [scanSection_heading_ne hl, ih]
        constructor
        · rintro ⟨mid, post, e, hm⟩
          refine ⟨.heading level text :: mid, post, by simp [e], plain_cons.2 ⟨⟨?_, ?_⟩, hm⟩⟩
          · intro t e1; cases e1; exact hl rfl
          · intro t e1; cases e1
        · rintro ⟨mid, post, e, hm⟩
          cases mid with
          | nil => simp at e
          | cons m mid =>
            simp only [List.cons_append, List.cons.injEq] at e
            exact ⟨mid, post, e.2, (plain_cons.1 hm).2⟩
    | table t =>
      rw [scanSection_table, Option.some.injEq]
      constructor
      · intro h; subst h; exact ⟨[], rest, rfl, plain_nil⟩
      · rintro ⟨mid, post, e, hm⟩
        cases mid with
        | nil =>
          simp only [List.nil_append, List.cons.injEq, Block.table.injEq] at e
          exact e.1
        | cons m mid =>
          simp only [List.cons_append, List.cons.injEq] at e
          exact absurd e.1.symm ((plain_cons.1 hm).1.2 t)
    | other =>
      rw [scanSection_other, ih]
      constructor
      · rintro ⟨mid, post, e, hm⟩
        refine ⟨.other :: mid, post, by simp [e], plain_cons.2 ⟨⟨?_, ?_⟩, hm⟩⟩
        · intro t e1; cases e1
        · intro t e1; cases e1
      · rintro ⟨mid, post, e, hm⟩
        cases mid with
        | nil => simp at e
        | cons m mid =>
          simp only [List.cons_append, List.cons.injEq] at e
          exact ⟨mid, post, e.2, (plain_cons.1 hm).2⟩

theorem scanSection_eq_none_iff (rest : List Block) :
    scanSection rest = none ↔
      Plain rest ∨ ∃ mid text post, rest = mid ++ .heading 3 text :: post ∧ Plain mid := by
  induction rest with
  | nil => simp [scanSection, plain_nil]
  | cons b rest ih =>
    cases b with
    | heading level text =>
      by_cases hl : level = 3
      · subst hl
        rw [scanSection_heading3]
        simp only [true_iff]
        exact Or.inr ⟨[], text, rest, rfl, plain_nil⟩
      · have hb : (∀ t, Block.heading level text ≠ .heading 3 t) ∧
            (∀ t, Block.heading level text ≠ .table t) :=
          ⟨fun t e1 => by cases e1; exact hl rfl, fun t e1 => by cases e1⟩
        rw [scanSection_heading_ne hl, ih]
        constructor
        · rintro (hp | ⟨mid, t, post, e, hm⟩)
          · exact Or.inl (plain_cons.2 ⟨hb, hp⟩)
          · exact Or.inr ⟨.heading level text :: mid, t, post, by simp [e], plain_cons.2 ⟨hb, hm⟩⟩
        · rintro (hp | ⟨mid, t, post, e, hm⟩)
          · exact Or.inl (plain_cons.1 hp).2
          · cases mid with
            | nil =>
              simp only [List.nil_append, List.cons.injEq] at e
              exact absurd e.1 (hb.1 t)
            | cons m mid =>
              simp only [List.cons_append, List.cons.injEq] at e
              exact Or.inr ⟨mid, t, post, e.2, (plain_cons.1 hm).2⟩
    | table t =>
      rw [scanSection_table]
      simp only [false_iff, not_or, reduceCtorEq, not_false_eq_true]
      refine ⟨fun hp => (plain_cons.1 hp).1.2 t rfl, ?_⟩
      · rintro ⟨mid, text, post, e, hm⟩
        cases mid with
        | nil => simp at e
        | cons m mid =>
          simp only [List.cons_append, List.cons.injEq] at e
          exact (plain_cons.1 hm).1.2 t e.1.symm
    | other =>
      have hb : (∀ t, Block.other ≠ .heading 3 t) ∧ (∀ t, Block.other ≠ .table t) :=
        ⟨fun t e1 => (by cases e1), fun t e1 => (by cases e1)⟩
      rw [scanSection_other, ih]
      constructor
      · rintro (hp | ⟨mid, t, post, e, hm⟩)
        · exact Or.inl (plain_cons.2 ⟨hb, hp⟩)
        · exact Or.inr ⟨.other :: mid, t, post, by simp [e], plain_cons.2 ⟨hb, hm⟩⟩
      · rintro (hp | ⟨mid, t, post, e, hm⟩)
        · exact Or.inl (plain_cons.1 hp).2
        · cases mid with
          | nil => simp at e
          | cons m mid =>
            simp only [List.cons_append, List.cons.injEq] at e
            exact Or.inr ⟨mid, t, post, e.2, (plain_cons.1 hm).2⟩

/-- Claim C1. The section locator returns the table `T` exactly when the document is
`pre`, the first level-3 heading with text "Context availability", a run `mid` without
level-3 heading and without table, then the table `T`; it fails exactly when there is no
such heading, or the document ends after such a run, or a level-3 heading follows such a
run. A heading at another level or with another text is never the target. -/
theorem parseContextAvailabilityTable_spec (src : List Block) :
    (∀ T : Table, parseContextAvailabilityTable src = some T ↔
      ∃ pre mid post, src = pre ++ .heading 3 targetHeading :: (mid ++ .table T :: post) ∧
        Block.heading 3 targetHeading ∉ pre ∧ Plain mid) ∧
    (parseContextAvailabilityTable src = none ↔
      Block.heading 3 targetHeading ∉ src ∨
      (∃ pre mid, src = pre ++ .heading 3 targetHeading :: mid ∧
        Block.heading 3 targetHeading ∉ pre ∧ Plain mid) ∨
      (∃ pre mid text post,
        src = pre ++ .heading 3 targetHeading :: (mid ++ .heading 3 text :: post) ∧
        Block.heading 3 targetHeading ∉ pre ∧ Plain mid)) ∧
    (∀ (level : Int) (text : Str) (pre post : List Block),
      (level ≠ 3 ∨ text ≠ targetHeading) →
      Block.heading 3 targetHeading ∉ pre → Block.heading 3 targetHeading ∉ post →
      parseContextAvailabilityTable (pre ++ .heading level text :: post) = none) := by
  refine ⟨fun T => ⟨?_, ?_⟩, ⟨?_, ?_⟩, ?_⟩
  · intro h
    by_cases hm : Block.heading 3 targetHeading ∈ src
    · obtain ⟨pre, rest, e, hp⟩ := exists_first_target hm
      subst e
      unfold parseContextAvailabilityTable at h
      rw [skipToSection_append hp] at h
      obtain ⟨mid, post, e, hmid⟩ := (scanSection_eq_some_iff rest T).1 h
      exact ⟨pre, mid, post, by rw [e], hp, hmid⟩
    · unfold parseContextAvailabilityTable at h
      rw [skipToSection_of_not_mem hm] at h
      cases h
  · rintro ⟨pre, mid, post, e, hp, hmid⟩
    subst e
    unfold parseContextAvailabilityTable
    rw [skipToSection_append hp]
    exact (scanSection_eq_some_iff _ T).2 ⟨mid, post, rfl, hmid⟩
  · intro h
    by_cases hm : Block.heading 3 targetHeading ∈ src
    · obtain ⟨pre, rest, e, hp⟩ := exists_first_target hm
      subst e
      unfold parseContextAvailabilityTable at h
      rw [skipToSection_append hp] at h
      rcases (scanSection_eq_none_iff rest).1 h with hr | ⟨mid, text, post, e, hmid⟩
      · exact Or.inr (Or.inl ⟨pre, rest, rfl, hp, hr⟩)
      · exact Or.inr (Or.inr ⟨pre, mid, text, post, by rw [e], hp, hmid⟩)
    · exact Or.inl hm
  · rintro (hm | ⟨pre, mid, e, hp, hmid⟩ | ⟨pre, mid, text, post, e, hp, hmid⟩)
    · unfold parseContextAvailabilityTable
      rw [skipToSection_of_not_mem hm]
      rfl
    · subst e
      unfold parseContextAvailabilityTable
      rw [skipToSection_append hp]
      exact (scanSection_eq_none_iff _).2 (Or.inl hmid)
    · subst e
      unfold parseContextAvailabilityTable
      rw [skipToSection_append hp]
      exact (scanSection_eq_none_iff _).2 (Or.inr ⟨mid, text, post, rfl, hmid⟩)
  · intro level text pre post hlt hpre hpost
    unfold parseContextAvailabilityTable
    rw [skipToSection_of_not_mem]
    · rfl
    · simp only [List.mem_append, List.mem_cons, not_or]
      refine ⟨hpre, ?_, hpost⟩
      intro e
      cases e
      rcases hlt with h1 | h1 <;> exact h1 rfl

/-- Witness for claim C1: a level-2 heading with the target text and a level-3 heading
whose text starts with the target text, each followed by a table, are not the target. -/
theorem parseContextAvailabilityTable_spec_witness :
    parseContextAvailabilityTable
        ([.heading 2 targetHeading, .table ⟨[]⟩] ++
          .heading 3 (targetHeading ++ " table".toList) :: [.table ⟨[]⟩]) = none :=
  (parseContextAvailabilityTable_spec []).2.2 3 (targetHeading ++ " table".toList)
    [.heading 2 targetHeading, .table ⟨[]⟩] [.table ⟨[]⟩]
    (Or.inr (by decide)) (by decide) (by decide)

/-! ## Row loop -/

theorem rowLoop_other (L : Lib) (rest : List TableChild) (acc : Acc) :
    rowLoop L (.other :: rest) acc = rowLoop L rest acc := rfl

theorem rowLoop_malformed (L : Lib) {r : List RowChild} (h : (cells r).length ≠ 3)
    (rest : List TableChild) (acc : Acc) :
    rowLoop L (.row r :: rest) acc = .error (.malformedRow (cells r)) := by
  simp [rowLoop, h]

theorem rowLoop_sentinel (L : Lib) {r : List RowChild} (h : (cells r).length = 3)
    (hs : (cells r).head? = some elseDirective) (rest : List TableChild) (acc : Acc) :
    rowLoop L (.row r :: rest) acc = .ok acc := by
  simp [rowLoop, h, hs]

theorem rowLoop_sanitize_error (L : Lib) {r : List RowChild} (h : (cells r).length = 3)
    (hs : (cells r).head? ≠ some elseDirective) {e : GenError}
    (he : sanitizeCells L (cells r) = .error e) (rest : List TableChild) (acc : Acc) :
    rowLoop L (.row r :: rest) acc = .error e := by
  simp [rowLoop, h, hs, he]

theorem rowLoop_sanitize_ok (L : Lib) {r : List RowChild} (h : (cells r).length = 3)
    (hs : (cells r).head? ≠ some elseDirective) {cs1 : List Str}
    (he : sanitizeCells L (cells r) = .ok cs1) (rest : List TableChild) (acc : Acc) :
    rowLoop L (.row r :: rest) acc =
      if cs1.getD 0 [] = [] then rowLoop L rest acc
      else rowLoop L rest (acc.addRow (cs1.getD 0 []) (split L (cs1.getD 1 []))
        (split L (cs1.getD 2 []))) := by
  simp [rowLoop, h, hs, he]

theorem addRow_cases (acc : Acc) (key : Str) (ctx sp : List Str) :
    (acc.addRow key ctx sp).cases = acc.cases ++ [⟨key, ctx, sp⟩] := rfl

/-- Case entries after a successful run of the row loop: those of the visited rows with a
non-empty sanitized key, in table order. -/
theorem rowLoop_ok_cases (L : Lib) (children : List TableChild) :
    ∀ acc acc1 : Acc, rowLoop L children acc = .ok acc1 →
      ∃ rs : List (List Str),
        List.Forall₂ (fun cs r => cs.length = 3 ∧ sanitizeCells L cs = .ok r)
          (visitedRows children) rs ∧
        acc1.cases = acc.cases ++ (rs.filter hasKey).map (recordOf L) := by
  induction children with
  | nil =>
    intro acc acc1 h
    simp only [rowLoop, Except.ok.injEq] at h
    subst h
    exact ⟨[], by simp [visitedRows], by simp⟩
  | cons c rest ih =>
    intro acc acc1 h
    cases c with
    | other =>
      rw [rowLoop_other] at h
      obtain ⟨rs, h1, h2⟩ := ih acc acc1 h
      exact ⟨rs, by simpa [visitedRows, rowCells] using h1, h2⟩
    | row r =>
      by_cases hlen : (cells r).length = 3
      · by_cases hs : (cells r).head? = some elseDirective
        · rw [rowLoop_sentinel L hlen hs] at h
          simp only [Except.ok.injEq] at h
          subst h
          exact ⟨[], by simp [visitedRows, rowCells, hs], by simp⟩
        · cases he : sanitizeCells L (cells r) with
          | error e =>
            rw [rowLoop_sanitize_error L hlen hs he] at h
            cases h
          | ok cs1 =>
            rw [rowLoop_sanitize_ok L hlen hs he] at h
            have hv : visitedRows (.row r :: rest) = cells r :: visitedRows rest := by
              simp [visitedRows, rowCells, hs]
            by_cases hk : cs1.getD 0 [] = []
            · rw [if_pos hk] at h
              obtain ⟨rs, h1, h2⟩ := ih acc acc1 h
              refine ⟨cs1 :: rs, ?_, ?_⟩
              · rw [hv]
                exact List.Forall₂.cons ⟨hlen, he⟩ h1
              · have hf : ¬ (hasKey cs1 = true) := by unfold hasKey; rw [hk]; decide
                rw [h2, List.filter_cons_of_neg hf]
            · rw [if_neg hk] at h
              obtain ⟨rs, h1, h2⟩ := ih _ acc1 h
              refine ⟨cs1 :: rs, ?_, ?_⟩
              · rw [hv]
                exact List.Forall₂.cons ⟨hlen, he⟩ h1
              · have hf : hasKey cs1 = true := bne_iff_ne.2 hk
                rw [h2, addRow_cases, List.filter_cons_of_pos hf, List.map_cons,
                  List.append_assoc]
                rfl
      · rw [rowLoop_malformed L hlen] at h
        cases h

theorem buildIndex_ok_cases (L : Lib) (T : Table) (art : Artifact)
    (h : buildIndex L T = .ok art) :
    ∃ rs : List (List Str),
      List.Forall₂ (fun cs r => cs.length = 3 ∧ sanitizeCells L cs = .ok r)
        (visitedRows T.children) rs ∧
      art.cases = (rs.filter hasKey).map (recordOf L) := by
  unfold buildIndex at h
  cases hr : rowLoop L T.children Acc.empty with
  | error e => rw [hr] at h; cases h
  | ok acc =>
    rw [hr] at h
    simp only [Except.ok.injEq] at h
    subst h
    obtain ⟨rs, h1, h2⟩ := rowLoop_ok_cases L T.children _ _ hr
    exact ⟨rs, h1, by simpa [Acc.toArtifact, Acc.empty] using h2⟩

theorem generate_of_parse {ω : Type} (L : Lib) (write : ω → Str → ω × Bool)
    {src1 src2 : List Block}
    (h : parseContextAvailabilityTable src1 = parseContextAvailabilityTable src2) (out : ω) :
    generate L write src1 out = generate L write src2 out := by
  unfold generate
  rw [h]

/-- Claim C2, counterexample: the document has a target heading followed by a table with
no level-3 heading between them, yet the lookup fails, because the first target heading
is followed by a level-3 heading. -/
theorem repeated_heading_not_found :
    (∃ pre mid post T,
      repeatedHeadingDoc = pre ++ .heading 3 targetHeading :: (mid ++ .table T :: post) ∧
        Plain mid) ∧
    parseContextAvailabilityTable repeatedHeadingDoc = none ∧
    generate asciiLib recordWrite repeatedHeadingDoc [] = (.error .sectionNotFound, []) := by
  refine ⟨⟨[.heading 3 targetHeading, .heading 3 "Other".toList], [], [], _, rfl, plain_nil⟩,
    by decide, rfl⟩

/-- Claim C2, amended: when the first target heading of the document is followed by a
table `T` with no level-3 heading between them, the lookup returns `T`, `generate` runs
on `T` whatever surrounds it, and on success the case entries are those of the visited
rows of `T` with a non-empty key, in document order. -/
theorem parse_first_heading_table {ω : Type} (L : Lib) (write : ω → Str → ω × Bool)
    (out : ω) (pre mid post : List Block) (T : Table)
    (hpre : Block.heading 3 targetHeading ∉ pre) (hmid : Plain mid) :
    parseContextAvailabilityTable
        (pre ++ .heading 3 targetHeading :: (mid ++ .table T :: post)) = some T ∧
    generate L write (pre ++ .heading 3 targetHeading :: (mid ++ .table T :: post)) out =
      generate L write [.heading 3 targetHeading, .table T] out ∧
    ∀ art, buildIndex L T = .ok art →
      ∃ rs : List (List Str),
        List.Forall₂ (fun cs r => cs.length = 3 ∧ sanitizeCells L cs = .ok r)
          (visitedRows T.children) rs ∧
        art.cases = (rs.filter hasKey).map (recordOf L) := by
  have hp : parseContextAvailabilityTable
      (pre ++ .heading 3 targetHeading :: (mid ++ .table T :: post)) = some T := by
    unfold parseContextAvailabilityTable
    rw [skipToSection_append hpre]
    exact (scanSection_eq_some_iff _ T).2 ⟨mid, post, rfl, hmid⟩
  refine ⟨hp, ?_, fun art h => buildIndex_ok_cases L T art h⟩
  apply generate_of_parse
  rw [hp]
  rfl

/-- Witness for claim C2: a paragraph, the heading, a paragraph and a level-2 heading,
then the table. -/
theorem parse_first_heading_table_witness :
    parseContextAvailabilityTable
        ([.other] ++ .heading 3 targetHeading ::
          ([.other, .heading 2 "Notes".toList] ++
            .table ⟨[.row [.cell "on".toList, .cell "github".toList, .cell []]]⟩ ::
              [.heading 3 targetHeading])) =
      some ⟨[.row [.cell "on".toList, .cell "github".toList, .cell []]]⟩ :=
  (parse_first_heading_table asciiLib recordWrite [] [.other]
    [.other, .heading 2 "Notes".toList] [.heading 3 targetHeading]
    ⟨[.row [.cell "on".toList, .cell "github".toList, .cell []]]⟩
    (by decide) (by
      intro b hb
      simp only [List.mem_cons, List.mem_singleton, List.not_mem_nil, or_false] at hb
      rcases hb with hb | hb <;> subst hb <;>
        exact ⟨fun t e => (by cases e), fun t e => (by cases e)⟩)).1

/-! ## Cell sanitizer -/

theorem stripAndUnescape_of_contains (L : Lib) {s : Str}
    (h : containsSub s elseDirective = true) :
    stripAndUnescape L s = .error (.unsupportedDirective s) := by
  simp [stripAndUnescape, h]

theorem stripAndUnescape_of_not_contains (L : Lib) {s : Str}
    (h : containsSub s elseDirective = false) :
    stripAndUnescape L s = .ok (unescapeString L (replacePlaceholders s)) := by
  simp [stripAndUnescape, h]

theorem sanitizeCells_cons_error (L : Lib) {c : Str} (rest : List Str)
    (h : containsSub c elseDirective = true) :
    sanitizeCells L (c :: rest) = .error (.unsupportedDirective c) := by
  simp [sanitizeCells, stripAndUnescape_of_contains L h]

theorem sanitizeCells_cons_ok (L : Lib) {c : Str} (rest : List Str)
    (h : containsSub c elseDirective = false) :
    sanitizeCells L (c :: rest) =
      match sanitizeCells L rest with
      | .error e => .error e
      | .ok rest1 => .ok (unescapeString L (replacePlaceholders c) :: rest1) := by
  simp [sanitizeCells, stripAndUnescape_of_not_contains L h]

/-- The sanitizing loop fails exactly when some cell contains the else directive; the
error names the first such cell. -/
theorem sanitizeCells_error (L : Lib) (cs : List Str) (e : GenError)
    (h : sanitizeCells L cs = .error e) :
    ∃ cell ∈ cs, containsSub cell elseDirective = true ∧ e = .unsupportedDirective cell := by
  induction cs with
  | nil => simp [sanitizeCells] at h
  | cons c rest ih =>
    cases hc : containsSub c elseDirective with
    | true =>
      rw [sanitizeCells_cons_error L rest hc] at h
      simp only [Except.error.injEq] at h
      exact ⟨c, List.mem_cons_self _ _, hc, h.symm⟩
    | false =>
      rw [sanitizeCells_cons_ok L rest hc] at h
      cases hr : sanitizeCells L rest with
      | error e1 =>
        rw [hr] at h
        simp only [Except.error.injEq] at h
        subst h
        obtain ⟨cell, hm, h1, h2⟩ := ih hr
        exact ⟨cell, List.mem_cons_of_mem _ hm, h1, h2⟩
      | ok r =>
        rw [hr] at h
        cases h

theorem sanitizeCells_ok (L : Lib) (cs : List Str)
    (h : ∀ cell ∈ cs, containsSub cell elseDirective = false) :
    sanitizeCells L cs = .ok (cs.map (fun c => unescapeString L (replacePlaceholders c))) := by
  induction cs with
  | nil => rfl
  | cons c rest ih =>
    rw [sanitizeCells_cons_ok L rest (h c (List.mem_cons_self _ _)),
      ih (fun cell hm => h cell (List.mem_cons_of_mem _ hm))]
    rfl

theorem sanitizeCells_of_contains (L : Lib) (cs : List Str) {cell : Str} (hm : cell ∈ cs)
    (h : containsSub cell elseDirective = true) :
    ∃ c, sanitizeCells L cs = .error (.unsupportedDirective c) := by
  cases hr : sanitizeCells L cs with
  | error e =>
    obtain ⟨c, _, _, h2⟩ := sanitizeCells_error L cs e hr
    exact ⟨c, by rw [h2]⟩
  | ok r =>
    exfalso
    induction cs generalizing r with
    | nil => simp at hm
    | cons c rest ih =>
      cases hc : containsSub c elseDirective with
      | true =>
        rw [sanitizeCells_cons_error L rest hc] at hr
        cases hr
      | false =>
        rw [sanitizeCells_cons_ok L rest hc] at hr
        cases hr2 : sanitizeCells L rest with
        | error e1 => rw [hr2] at hr; cases hr
        | ok r2 =>
          rcases List.mem_cons.1 hm with h1 | h1
          · subst h1; rw [h] at hc; cases hc
          · exact ih h1 r2 hr2

/-! ## Row loop over a leading part of the table -/

/-- Outcome of the row loop on the rows `pre` when none of them is a sentinel row: either
an error that the rows after `pre` cannot change, raised by a row of `pre` without three
cells or by a cell of `pre` with the else directive, or accumulators with which the loop
goes on. -/
theorem rowLoop_append (L : Lib) (pre : List TableChild)
    (hpre : ∀ c ∈ pre, ∀ cs, rowCells c = some cs →
      ¬ (cs.length = 3 ∧ cs.head? = some elseDirective)) :
    ∀ acc : Acc,
      (∃ e, (∀ rest, rowLoop L (pre ++ rest) acc = .error e) ∧
        ((∃ c ∈ pre, ∃ cs, rowCells c = some cs ∧ cs.length ≠ 3 ∧ e = .malformedRow cs) ∨
          (∃ c ∈ pre, ∃ cs, rowCells c = some cs ∧ ∃ cell ∈ cs,
            containsSub cell elseDirective = true ∧ e = .unsupportedDirective cell))) ∨
      (∃ acc1, ∀ rest, rowLoop L (pre ++ rest) acc = rowLoop L rest acc1) := by
  induction pre with
  | nil => intro acc; exact Or.inr ⟨acc, fun _ => rfl⟩
  | cons c pre ih =>
    intro acc
    have hpre2 : ∀ c ∈ pre, ∀ cs, rowCells c = some cs →
        ¬ (cs.length = 3 ∧ cs.head? = some elseDirective) :=
      fun d hd => hpre d (List.mem_cons_of_mem _ hd)
    have lift : ∀ acc2 : Acc, (∀ rest, rowLoop L ((c :: pre) ++ rest) acc =
        rowLoop L (pre ++ rest) acc2) →
        ((∃ e, (∀ rest, rowLoop L ((c :: pre) ++ rest) acc = .error e) ∧
          ((∃ d ∈ c :: pre, ∃ cs, rowCells d = some cs ∧ cs.length ≠ 3 ∧
              e = .malformedRow cs) ∨
            (∃ d ∈ c :: pre, ∃ cs, rowCells d = some cs ∧ ∃ cell ∈ cs,
              containsSub cell elseDirective = true ∧ e = .unsupportedDirective cell))) ∨
        (∃ acc1, ∀ rest, rowLoop L ((c :: pre) ++ rest) acc = rowLoop L rest acc1)) := by
      intro acc2 hstep
      rcases ih hpre2 acc2 with ⟨e, he, hk⟩ | ⟨acc1, h1⟩
      · refine Or.inl ⟨e, fun rest => by rw [hstep, he], ?_⟩
        rcases hk with ⟨d, hd, cs, h1, h2, h3⟩ | ⟨d, hd, cs, h1, cell, h2, h3, h4⟩
        · exact Or.inl ⟨d, List.mem_cons_of_mem _ hd, cs, h1, h2, h3⟩
        · exact Or.inr ⟨d, List.mem_cons_of_mem _ hd, cs, h1, cell, h2, h3, h4⟩
      · exact Or.inr ⟨acc1, fun rest => by rw [hstep, h1]⟩
    cases c with
    | other => exact lift acc (fun rest => rowLoop_other L _ acc)
    | row r =>
      by_cases hlen : (cells r).length = 3
      · have hs : (cells r).head? ≠ some elseDirective := fun hs =>
          hpre (.row r) (List.mem_cons_self _ _) (cells r) rfl ⟨hlen, hs⟩
        cases he : sanitizeCells L (cells r) with
        | error e =>
          refine Or.inl ⟨e, fun rest => rowLoop_sanitize_error L hlen hs he _ acc, Or.inr ?_⟩
          obtain ⟨cell, hm, h1, h2⟩ := sanitizeCells_error L _ e he
          exact ⟨.row r, List.mem_cons_self _ _, cells r, rfl, cell, hm, h1, h2⟩
        | ok cs1 =>
          by_cases hk : cs1.getD 0 [] = []
          · refine lift acc (fun rest => ?_)
            rw [List.cons_append, rowLoop_sanitize_ok L hlen hs he, if_pos hk]
          · refine lift (acc.addRow (cs1.getD 0 []) (split L (cs1.getD 1 []))
              (split L (cs1.getD 2 []))) (fun rest => ?_)
            rw [List.cons_append, rowLoop_sanitize_ok L hlen hs he, if_neg hk]
      · exact Or.inl ⟨_, fun rest => rowLoop_malformed L hlen _ acc,
          Or.inl ⟨.row r, List.mem_cons_self _ _, cells r, rfl, hlen, rfl⟩⟩

/-! ## The generator on a located table -/

theorem generate_of_rowLoop_error {ω : Type} (L : Lib) (write : ω → Str → ω × Bool)
    {src : List Block} {T : Table} (hp : parseContextAvailabilityTable src = some T)
    {e : GenError} (he : rowLoop L T.children Acc.empty = .error e) (out : ω) :
    generate L write src out = (.error e, out) := by
  simp [generate, hp, buildIndex, he]

theorem generate_of_rowLoop_eq {ω : Type} (L : Lib) (write : ω → Str → ω × Bool)
    {src1 src2 : List Block} {T1 T2 : Table}
    (h1 : parseContextAvailabilityTable src1 = some T1)
    (h2 : parseContextAvailabilityTable src2 = some T2)
    (h : rowLoop L T1.children Acc.empty = rowLoop L T2.children Acc.empty) (out : ω) :
    generate L write src1 out = generate L write src2 out := by
  simp [generate, h1, h2, buildIndex, h]

/-- On a table in which no row has three cells, the row loop stops at the first row with
the malformed-row error. -/
theorem rowLoop_all_malformed (L : Lib) (children : List TableChild)
    (hall : ∀ c ∈ children, ∀ cs, rowCells c = some cs → cs.length ≠ 3)
    (hex : ∃ c ∈ children, ∃ cs, rowCells c = some cs) (acc : Acc) :
    ∃ cs, cs.length ≠ 3 ∧ (∃ c ∈ children, rowCells c = some cs) ∧
      rowLoop L children acc = .error (.malformedRow cs) := by
  induction children with
  | nil =>
    obtain ⟨c, hc, _⟩ := hex
    simp at hc
  | cons c rest ih =>
    cases c with
    | other =>
      have hex2 : ∃ c ∈ rest, ∃ cs, rowCells c = some cs := by
        obtain ⟨c, hc, cs, h⟩ := hex
        rcases List.mem_cons.1 hc with e | e
        · subst e; cases h
        · exact ⟨c, e, cs, h⟩
      obtain ⟨cs, h1, ⟨d, hd, h2⟩, h3⟩ :=
        ih (fun d hd => hall d (List.mem_cons_of_mem _ hd)) hex2
      exact ⟨cs, h1, ⟨d, List.mem_cons_of_mem _ hd, h2⟩, by rw [rowLoop_other, h3]⟩
    | row r =>
      have hlen : (cells r).length ≠ 3 := hall (.row r) (List.mem_cons_self _ _) (cells r) rfl
      exact ⟨cells r, hlen, ⟨.row r, List.mem_cons_self _ _, rfl⟩,
        rowLoop_malformed L hlen rest acc⟩

/-- Claim C3. When a row of the table does not have exactly three cells, wherever it
stands, `generate` fails with the malformed-row error and writes nothing. The rows of a
parsed table all have the same number of cells, so the first row already fails the
test. -/
theorem malformed_row_fails {ω : Type} (L : Lib) (write : ω → Str → ω × Bool)
    (out : ω) (src : List Block) (T : Table) (r : List RowChild)
    (hp : parseContextAvailabilityTable src = some T)
    (hu : UniformRows T.children)
    (hr : TableChild.row r ∈ T.children) (hlen : (cells r).length ≠ 3) :
    ∃ cs, cs.length ≠ 3 ∧ (∃ c ∈ T.children, rowCells c = some cs) ∧
      generate L write src out = (.error (.malformedRow cs), out) := by
  have hall : ∀ c ∈ T.children, ∀ cs, rowCells c = some cs → cs.length ≠ 3 := by
    intro c hc cs h
    rw [hu c hc (.row r) hr cs (cells r) h rfl]
    exact hlen
  obtain ⟨cs, h1, h2, h3⟩ :=
    rowLoop_all_malformed L T.children hall ⟨.row r, hr, cells r, rfl⟩ Acc.empty
  exact ⟨cs, h1, h2, generate_of_rowLoop_error L write hp h3 out⟩

/-- Witness for claim C3: a table with two columns; the row looked at is the last one,
the error names the first one. -/
theorem malformed_row_fails_witness :
    ∃ cs, cs.length ≠ 3 ∧
      generate asciiLib recordWrite twoColumnDoc [] = (.error (.malformedRow cs), []) := by
  obtain ⟨cs, h1, _, h3⟩ := malformed_row_fails asciiLib recordWrite [] twoColumnDoc
    ⟨[.other,
      .row [.cell "x".toList, .cell "y".toList],
      .row [.cell "p".toList, .cell "q".toList],
      .row [.cell "r".toList, .cell "s".toList]]⟩
    [.cell "r".toList, .cell "s".toList] rfl
    (by
      intro c1 hc1 c2 hc2 cs1 cs2 h1 h2
      simp only [List.mem_cons, List.mem_singleton, List.not_mem_nil, or_false] at hc1 hc2
      rcases hc1 with e | e | e | e <;> subst e <;> cases h1 <;>
        rcases hc2 with e | e | e | e <;> subst e <;> cases h2 <;> rfl)
    (by decide) (by decide)
  exact ⟨cs, h1, h3⟩

/-- Claim C4. When the first row whose first cell is the else directive has three cells,
`generate` gives the result it gives on the rows before that row: the same error, or the
same case entries, reverse index and keys. -/
theorem sentinel_row_stops {ω : Type} (L : Lib) (write : ω → Str → ω × Bool) (out : ω)
    (src1 src2 : List Block) (pre post : List TableChild) (r : List RowChild)
    (h1 : parseContextAvailabilityTable src1 = some ⟨pre ++ .row r :: post⟩)
    (h2 : parseContextAvailabilityTable src2 = some ⟨pre⟩)
    (hlen : (cells r).length = 3) (hs : (cells r).head? = some elseDirective)
    (hpre : ∀ c ∈ pre, ∀ cs, rowCells c = some cs → cs.head? ≠ some elseDirective) :
    generate L write src1 out = generate L write src2 out ∧
    buildIndex L ⟨pre ++ .row r :: post⟩ = buildIndex L ⟨pre⟩ := by
  have hns : ∀ c ∈ pre, ∀ cs, rowCells c = some cs →
      ¬ (cs.length = 3 ∧ cs.head? = some elseDirective) :=
    fun c hc cs h3 h4 => hpre c hc cs h3 h4.2
  have hloop : rowLoop L (pre ++ .row r :: post) Acc.empty = rowLoop L pre Acc.empty := by
    rcases rowLoop_append L pre hns Acc.empty with ⟨e, he, _⟩ | ⟨acc1, h3⟩
    · have h4 := he []
      rw [List.append_nil] at h4
      rw [he, h4]
    · have h4 := h3 []
      rw [List.append_nil] at h4
      rw [h3, h4, rowLoop_sentinel L hlen hs]
      rfl
  exact ⟨generate_of_rowLoop_eq L write h1 h2 hloop out, by simp [buildIndex, hloop]⟩

/-- Witness for claim C4: the sentinel row is followed by a row that would be accepted
and by a row with an embedded conditional. -/
theorem sentinel_row_stops_witness :
    generate asciiLib recordWrite sentinelDoc [] =
      generate asciiLib recordWrite sentinelCutDoc [] :=
  (sentinel_row_stops asciiLib recordWrite [] sentinelDoc sentinelCutDoc
    [.other, .row [.cell "on".toList, .cell "github".toList, .cell []]]
    [.row [.cell "env".toList, .cell "github".toList, .cell "always".toList],
      .row [.cell "k".toList, .cell ("a".toList ++ elseDirective), .cell []]]
    [.cell elseDirective, .cell [], .cell []] rfl rfl (by decide) (by decide)
    (by
      intro c hc cs h
      simp only [List.mem_cons, List.mem_singleton, List.not_mem_nil, or_false] at hc
      rcases hc with hc | hc <;> subst hc
      · cases h
      · cases h; decide)).1

/-! ## Substring test -/

theorem startsWith_iff (s sub : Str) : startsWith s sub = true ↔ ∃ t, s = sub ++ t := by
  induction s generalizing sub with
  | nil =>
    cases sub with
    | nil => simp [startsWith]
    | cons d sub => simp [startsWith]
  | cons c s ih =>
    cases sub with
    | nil => simp [startsWith]
    | cons d sub =>
      simp only [startsWith, Bool.and_eq_true, beq_iff_eq, ih, List.cons_append,
        List.cons.injEq]
      constructor
      · rintro ⟨h1, t, h2⟩
        exact ⟨t, h1, h2⟩
      · rintro ⟨t, h1, h2⟩
        exact ⟨h1, t, h2⟩

/-- The test `strings.Contains(s, sub)` holds exactly when `sub` occurs in `s`. -/
theorem containsSub_iff (s sub : Str) :
    containsSub s sub = true ↔ ∃ a b, s = a ++ sub ++ b := by
  induction s with
  | nil =>
    simp only [containsSub, startsWith_iff]
    constructor
    · rintro ⟨t, h⟩
      exact ⟨[], t, by simpa using h⟩
    · rintro ⟨a, b, h⟩
      have h1 : a = [] ∧ sub = [] ∧ b = [] := by simpa [List.append_eq_nil] using h.symm
      exact ⟨[], by simp [h1.2.1]⟩
  | cons c s ih =>
    simp only [containsSub, Bool.or_eq_true, startsWith_iff, ih]
    constructor
    · rintro (⟨t, h⟩ | ⟨a, b, h⟩)
      · exact ⟨[], t, by simpa using h⟩
      · exact ⟨c :: a, b, by simp [h]⟩
    · rintro ⟨a, b, h⟩
      cases a with
      | nil => exact Or.inl ⟨b, by simpa using h⟩
      | cons d a =>
        simp only [List.cons_append, List.cons.injEq] at h
        exact Or.inr ⟨a, b, h.2⟩

/-- Claim C5. The sanitizer returns an error exactly for a cell text in which the else
directive occurs; the cell with an embedded conditional is rejected; and `generate` fails,
writing nothing, whenever a row that stands before any sentinel row, and is not one, has
a cell in which the directive occurs. -/
theorem stripAndUnescape_error_iff {ω : Type} (L : Lib) (write : ω → Str → ω × Bool)
    (out : ω) :
    (∀ s : Str, (∃ e, stripAndUnescape L s = .error e) ↔
      ∃ a b, s = a ++ elseDirective ++ b) ∧
    stripAndUnescape L embeddedElseCell = .error (.unsupportedDirective embeddedElseCell) ∧
    (∀ (src : List Block) (pre post : List TableChild) (r : List RowChild),
      parseContextAvailabilityTable src = some ⟨pre ++ .row r :: post⟩ →
      (∀ c ∈ pre, ∀ cs, rowCells c = some cs →
        ¬ (cs.length = 3 ∧ cs.head? = some elseDirective)) →
      ¬ ((cells r).length = 3 ∧ (cells r).head? = some elseDirective) →
      (∃ cell ∈ cells r, ∃ a b, cell = a ++ elseDirective ++ b) →
      ∃ e, generate L write src out = (.error e, out)) := by
  refine ⟨fun s => ?_, rfl, ?_⟩
  · rw [← containsSub_iff]
    cases hc : containsSub s elseDirective with
    | true => simp [stripAndUnescape_of_contains L hc]
    | false => simp [stripAndUnescape_of_not_contains L hc]
  · intro src pre post r hparse hpre hr ⟨cell, hm, hsub⟩
    have hc : containsSub cell elseDirective = true := (containsSub_iff _ _).2 hsub
    rcases rowLoop_append L pre hpre Acc.empty with ⟨e, he, _⟩ | ⟨acc1, h1⟩
    · exact ⟨e, generate_of_rowLoop_error L write hparse (he _) out⟩
    · by_cases hlen : (cells r).length = 3
      · have hs : (cells r).head? ≠ some elseDirective := fun hs => hr ⟨hlen, hs⟩
        obtain ⟨c, hcs⟩ := sanitizeCells_of_contains L (cells r) hm hc
        exact ⟨_, generate_of_rowLoop_error L write hparse
          ((h1 _).trans (rowLoop_sanitize_error L hlen hs hcs post acc1)) out⟩
      · exact ⟨_, generate_of_rowLoop_error L write hparse
          ((h1 _).trans (rowLoop_malformed L hlen post acc1)) out⟩

/-- Witness for claim C5: the second cell of the only row has an embedded conditional. -/
theorem stripAndUnescape_error_iff_witness :
    ∃ e, generate asciiLib recordWrite embeddedElseDoc [] = (.error e, []) :=
  (stripAndUnescape_error_iff asciiLib recordWrite []).2.2 embeddedElseDoc [.other] []
    [.cell "on".toList, .cell embeddedElseCell, .cell []] rfl
    (by
      intro c hc cs h
      simp only [List.mem_singleton] at hc
      subst hc
      cases h)
    (by decide)
    ⟨embeddedElseCell, by simp [cells],
      "\x7b% if x %\x7da".toList, "b\x7b% endif %\x7d".toList, by decide⟩

/-- Claim C6. When `generate` returns the section-not-found error, a malformed-row error
or an unsupported-directive error, the writer is left as it was: nothing is written. -/
theorem generate_error_writes_nothing {ω : Type} (L : Lib) (write : ω → Str → ω × Bool)
    (src : List Block) (out : ω)
    (h : (generate L write src out).1 = .error .sectionNotFound ∨
      (∃ cs, (generate L write src out).1 = .error (.malformedRow cs)) ∨
      (∃ cell, (generate L write src out).1 = .error (.unsupportedDirective cell))) :
    (generate L write src out).2 = out := by
  unfold generate at h ⊢
  cases hp : parseContextAvailabilityTable src with
  | none => rfl
  | some t =>
    simp only [hp] at h ⊢
    cases hb : buildIndex L t with
    | error e => rfl
    | ok art =>
      simp only [hb] at h ⊢
      cases hf : L.formatSource art with
      | none => rfl
      | some formatted =>
        simp only [hf] at h ⊢
        rcases hw : write out formatted with ⟨out1, ok⟩
        rw [hw] at h
        cases ok
        · rcases h with h | ⟨cs, h⟩ | ⟨cell, h⟩ <;> cases h
        · rcases h with h | ⟨cs, h⟩ | ⟨cell, h⟩ <;> cases h

/-- Witness for claim C6: the run on the table with an embedded conditional fails with
the unsupported-directive error and the writer holds no chunk. -/
theorem generate_error_writes_nothing_witness :
    (generate asciiLib recordWrite embeddedElseDoc []).1 =
        .error (.unsupportedDirective embeddedElseCell) ∧
      (generate asciiLib recordWrite embeddedElseDoc []).2 = [] :=
  ⟨rfl, generate_error_writes_nothing asciiLib recordWrite embeddedElseDoc []
    (Or.inr (Or.inr ⟨embeddedElseCell, rfl⟩))⟩

/-! ## Order of strings

The order `≤` of `Str` used by `sortStrings` is the lexicographic order by code point. -/

theorem str_nil_le (s : Str) : ([] : Str) ≤ s := List.nil_le

theorem str_cons_lt_cons_iff (c d : Char) (s t : Str) :
    (c :: s : Str) < d :: t ↔ c < d ∨ (c = d ∧ s < t) := by
  constructor
  · intro h
    cases h with
    | rel h1 => exact Or.inl h1
    | cons h1 => exact Or.inr ⟨rfl, h1⟩
  · rintro (h | ⟨h1, h2⟩)
    · exact List.Lex.rel h
    · subst h1
      exact List.Lex.cons h2

theorem str_cons_le_cons_iff (c d : Char) (s t : Str) :
    (c :: s : Str) ≤ d :: t ↔ c < d ∨ (c = d ∧ s ≤ t) := by
  rw [← not_lt, str_cons_lt_cons_iff, ← not_lt]
  constructor
  · intro h
    rcases lt_trichotomy c d with h1 | h1 | h1
    · exact Or.inl h1
    · exact Or.inr ⟨h1, fun h2 => h (Or.inr ⟨h1.symm, h2⟩)⟩
    · exact absurd (Or.inl h1) h
  · rintro (h | ⟨h1, h2⟩) (h3 | ⟨h3, h4⟩)
    · exact lt_asymm h h3
    · exact lt_irrefl _ (h3 ▸ h)
    · exact lt_irrefl _ (h1 ▸ h3)
    · exact h2 h4

theorem str_cons_not_le_nil (c : Char) (s : Str) : ¬ ((c :: s : Str) ≤ []) := by
  rw [not_le]
  exact List.nil_lt_cons c s

theorem char_lt_iff (c d : Char) : c < d ↔ c.toNat < d.toNat := Iff.rfl

/-! ## List normalizer -/

theorem split_of_empty (L : Lib) {text : Str} (h : trimSpace text = []) :
    split L text = [] := by
  simp [split, h]

theorem split_of_nonempty (L : Lib) {text : Str} (h : trimSpace text ≠ []) :
    split L text = sortStrings ((splitComma (trimSpace text)).map (normPiece L)) := by
  simp only [split, h, if_false]
  rfl

theorem sortStrings_sorted (ss : List Str) :
    List.Sorted (fun a b : Str => a ≤ b) (sortStrings ss) :=
  List.sorted_insertionSort _ ss

theorem sortStrings_perm (ss : List Str) : List.Perm (sortStrings ss) ss :=
  List.perm_insertionSort _ ss

theorem sortStrings_eq_of_perm {ss ts : List Str} (h : List.Perm ss ts) :
    sortStrings ss = sortStrings ts :=
  List.eq_of_perm_of_sorted
    (((sortStrings_perm ss).trans h).trans (sortStrings_perm ts).symm)
    (sortStrings_sorted ss) (sortStrings_sorted ts)

theorem splitComma_ne_nil (s : Str) : splitComma s ≠ [] := by
  cases s with
  | nil => simp [splitComma]
  | cons c rest =>
    by_cases hc : c = ','
    · simp [splitComma, hc]
    · simp only [splitComma, hc, if_false]
      cases splitComma rest <;> simp

theorem splitComma_eq_singleton_nil {s : Str} (h : splitComma s = [[]]) : s = [] := by
  cases s with
  | nil => rfl
  | cons c rest =>
    exfalso
    by_cases hc : c = ','
    · simp only [splitComma, hc, if_true, List.cons.injEq, true_and] at h
      exact splitComma_ne_nil rest h
    · simp only [splitComma, hc, if_false] at h
      cases hr : splitComma rest with
      | nil => rw [hr] at h; simp at h
      | cons p ps => rw [hr] at h; simp at h

/-- Claim C7. The row of `jobs.<job_id>.continue-on-error` gives the record with that
key, the contexts github, matrix, needs, strategy, vars and no special function. -/
theorem continue_on_error_record (L : Lib) :
    sanitizeCells L (cells continueOnErrorRow) =
        .ok ["jobs.<job_id>.continue-on-error".toList,
          "github, needs, strategy, matrix, vars".toList, []] ∧
    recordOf L ["jobs.<job_id>.continue-on-error".toList,
        "github, needs, strategy, matrix, vars".toList, []] =
      ⟨"jobs.<job_id>.continue-on-error".toList,
        ["github".toList, "matrix".toList, "needs".toList, "strategy".toList,
          "vars".toList], []⟩ ∧
    buildIndex L ⟨[.row continueOnErrorRow]⟩ =
      .ok ⟨[⟨"jobs.<job_id>.continue-on-error".toList,
          ["github".toList, "matrix".toList, "needs".toList, "strategy".toList,
            "vars".toList], []⟩],
        [], ["jobs.<job_id>.continue-on-error".toList]⟩ :=
  ⟨rfl, rfl, rfl⟩

/-- Claim C8. For a cell text that is not blank, `split` returns an ascending sequence
that is a permutation of the normalized comma-separated pieces of the trimmed text; two
texts whose pieces are permutations of each other give the same sequence. -/
theorem split_sorted_perm (L : Lib) :
    (∀ text : Str, trimSpace text ≠ [] →
      List.Sorted (fun a b : Str => a ≤ b) (split L text) ∧
      List.Perm (split L text)
        ((splitComma (trimSpace text)).map (fun s => toLower L (trimSpace s)))) ∧
    (∀ t1 t2 : Str, List.Perm (splitComma (trimSpace t1)) (splitComma (trimSpace t2)) →
      split L t1 = split L t2) := by
  constructor
  · intro text h
    rw [split_of_nonempty L h]
    exact ⟨sortStrings_sorted _, sortStrings_perm _⟩
  · intro t1 t2 hp
    by_cases h1 : trimSpace t1 = []
    · have h2 : trimSpace t2 = [] := by
        rw [h1] at hp
        have hs : splitComma (trimSpace t2) = [[]] := List.perm_singleton.1 hp.symm
        exact splitComma_eq_singleton_nil hs
      rw [split_of_empty L h1, split_of_empty L h2]
    · have h2 : trimSpace t2 ≠ [] := by
        intro h2
        rw [h2] at hp
        have hs : splitComma (trimSpace t1) = [[]] := List.perm_singleton.1 hp
        exact h1 (splitComma_eq_singleton_nil hs)
      rw [split_of_nonempty L h1, split_of_nonempty L h2]
      exact sortStrings_eq_of_perm (hp.map _)

/-- Witness for claim C8: the pieces in two orders, with different spacing and case. -/
theorem split_sorted_perm_witness :
    trimSpace " needs, GitHub ".toList ≠ [] ∧
    List.Sorted (fun a b : Str => a ≤ b) (split asciiLib " needs, GitHub ".toList) ∧
    split asciiLib " needs, GitHub ".toList = ["github".toList, "needs".toList] ∧
    split asciiLib " GitHub,needs, ".toList = split asciiLib " ,needs,GitHub".toList :=
  ⟨by decide,
    ((split_sorted_perm asciiLib).1 " needs, GitHub ".toList (by decide)).1,
    rfl,
    (split_sorted_perm asciiLib).2 " GitHub,needs, ".toList " ,needs,GitHub".toList
      (by decide)⟩

/-- Claim C9. The sequence returned by `split` is empty exactly when the text is empty
after trimming; a blank cell does not give the sequence with one empty token. -/
theorem split_eq_nil_iff (L : Lib) (text : Str) :
    (split L text = [] ↔ trimSpace text = []) ∧
    (trimSpace text = [] → split L text ≠ [[]]) := by
  refine ⟨⟨fun h => ?_, split_of_empty L⟩, fun h => ?_⟩
  · by_contra hne
    rw [split_of_nonempty L hne] at h
    have hl := (sortStrings_perm ((splitComma (trimSpace text)).map (normPiece L))).length_eq
    rw [h, List.length_map] at hl
    exact splitComma_ne_nil _ (List.length_eq_zero.1 hl.symm)
  · rw [split_of_empty L h]
    simp

/-- Witness for claim C9: a cell of blanks. -/
theorem split_eq_nil_iff_witness :
    split asciiLib "  \t ".toList = [] ∧ split asciiLib "  \t ".toList ≠ [[]] :=
  ⟨(split_eq_nil_iff asciiLib "  \t ".toList).1.2 (by decide),
    (split_eq_nil_iff asciiLib "  \t ".toList).2 (by decide)⟩

theorem split_sorted (L : Lib) (text : Str) :
    List.Sorted (fun a b : Str => a ≤ b) (split L text) := by
  by_cases h : trimSpace text = []
  · rw [split_of_empty L h]
    exact List.sorted_nil
  · rw [split_of_nonempty L h]
    exact sortStrings_sorted _

theorem split_mem (L : Lib) (text : Str) (tok : Str) (h : tok ∈ split L text) :
    ∃ piece ∈ splitComma (trimSpace text), tok = toLower L (trimSpace piece) := by
  by_cases he : trimSpace text = []
  · rw [split_of_empty L he] at h
    simp at h
  · rw [split_of_nonempty L he] at h
    have h2 := (sortStrings_perm _).subset h
    obtain ⟨piece, hp, e⟩ := List.mem_map.1 h2
    exact ⟨piece, hp, e.symm⟩

/-- Claim C10, counterexample: a token written twice in a cell occurs twice in the
sequence `split` returns, which is then neither strictly increasing nor free of
repetition; the case entry of the row holds these sequences. -/
theorem split_keeps_duplicates :
    (∀ L : Lib, split L "needs, github, needs".toList =
      ["github".toList, "needs".toList, "needs".toList]) ∧
    ¬ List.Sorted (fun a b : Str => a < b) (split asciiLib "needs, github, needs".toList) ∧
    ¬ (split asciiLib "needs, github, needs".toList).Nodup ∧
    buildIndex asciiLib duplicateTokenTable =
      .ok ⟨[⟨"on".toList, ["github".toList, "needs".toList, "needs".toList],
          ["always".toList, "always".toList]⟩],
        [("always".toList, ["on".toList, "on".toList])], ["on".toList]⟩ :=
  ⟨fun _ => rfl, by decide, by decide, rfl⟩

/-! ## Accumulators after the row loop -/

theorem sanitizeCells_eq_map (L : Lib) (cs r : List Str)
    (h : sanitizeCells L cs = .ok r) : r = cs.map (clean L) := by
  induction cs generalizing r with
  | nil =>
    simp only [sanitizeCells, Except.ok.injEq] at h
    rw [← h]
    rfl
  | cons c rest ih =>
    cases hc : containsSub c elseDirective with
    | true =>
      rw [sanitizeCells_cons_error L rest hc] at h
      cases h
    | false =>
      rw [sanitizeCells_cons_ok L rest hc] at h
      cases hr : sanitizeCells L rest with
      | error e => rw [hr] at h; cases h
      | ok r1 =>
        rw [hr] at h
        simp only [Except.ok.injEq] at h
        rw [← h, ih r1 hr]
        rfl

theorem sanitizeCells_ok_clean (L : Lib) (cs r : List Str)
    (h : sanitizeCells L cs = .ok r) : ∀ cell ∈ cs, containsSub cell elseDirective = false := by
  intro cell hm
  cases hc : containsSub cell elseDirective with
  | false => rfl
  | true =>
    obtain ⟨c, hc2⟩ := sanitizeCells_of_contains L cs hm hc
    rw [hc2] at h
    cases h

theorem visitedRows_other (rest : List TableChild) :
    visitedRows (.other :: rest) = visitedRows rest := by
  simp [visitedRows, rowCells]

theorem visitedRows_sentinel {r : List RowChild}
    (hs : (cells r).head? = some elseDirective) (rest : List TableChild) :
    visitedRows (.row r :: rest) = [] := by
  simp [visitedRows, rowCells, hs]

theorem visitedRows_row {r : List RowChild}
    (hs : (cells r).head? ≠ some elseDirective) (rest : List TableChild) :
    visitedRows (.row r :: rest) = cells r :: visitedRows rest := by
  simp [visitedRows, rowCells, hs]

theorem acceptedRows_other (L : Lib) (rest : List TableChild) :
    acceptedRows L (.other :: rest) = acceptedRows L rest := by
  unfold acceptedRows
  rw [visitedRows_other]

theorem acceptedRows_sentinel (L : Lib) {r : List RowChild}
    (hs : (cells r).head? = some elseDirective) (rest : List TableChild) :
    acceptedRows L (.row r :: rest) = [] := by
  unfold acceptedRows
  rw [visitedRows_sentinel hs]
  rfl

theorem acceptedRows_skip (L : Lib) {r : List RowChild}
    (hs : (cells r).head? ≠ some elseDirective)
    (hk : ((cells r).map (clean L)).getD 0 [] = []) (rest : List TableChild) :
    acceptedRows L (.row r :: rest) = acceptedRows L rest := by
  unfold acceptedRows
  rw [visitedRows_row hs, List.map_cons]
  have hf : ¬ (hasKey ((cells r).map (clean L)) = true) := by
    unfold hasKey
    rw [hk]
    decide
  rw [List.filter_cons_of_neg hf]

theorem acceptedRows_accept (L : Lib) {r : List RowChild}
    (hs : (cells r).head? ≠ some elseDirective)
    (hk : ((cells r).map (clean L)).getD 0 [] ≠ []) (rest : List TableChild) :
    acceptedRows L (.row r :: rest) = (cells r).map (clean L) :: acceptedRows L rest := by
  unfold acceptedRows
  rw [visitedRows_row hs, List.map_cons]
  have hf : hasKey ((cells r).map (clean L)) = true := bne_iff_ne.2 hk
  rw [List.filter_cons_of_pos hf]

/-- Accumulators after a successful run of the row loop: the body for an accepted row is
applied to the accepted rows in table order, and every visited row has three cells none
of which contains the else directive. -/
theorem rowLoop_ok_fold (L : Lib) (children : List TableChild) :
    ∀ acc acc1 : Acc, rowLoop L children acc = .ok acc1 →
      acc1 = (acceptedRows L children).foldl (Acc.addRecord L) acc ∧
      ∀ cs ∈ visitedRows children,
        cs.length = 3 ∧ ∀ cell ∈ cs, containsSub cell elseDirective = false := by
  induction children with
  | nil =>
    intro acc acc1 h
    simp only [rowLoop, Except.ok.injEq] at h
    subst h
    exact ⟨rfl, by simp [visitedRows]⟩
  | cons c rest ih =>
    intro acc acc1 h
    cases c with
    | other =>
      rw [rowLoop_other] at h
      rw [acceptedRows_other, visitedRows_other]
      exact ih acc acc1 h
    | row r =>
      by_cases hlen : (cells r).length = 3
      · by_cases hs : (cells r).head? = some elseDirective
        · rw [rowLoop_sentinel L hlen hs] at h
          simp only [Except.ok.injEq] at h
          subst h
          rw [acceptedRows_sentinel L hs, visitedRows_sentinel hs]
          exact ⟨rfl, by simp⟩
        · cases he : sanitizeCells L (cells r) with
          | error e =>
            rw [rowLoop_sanitize_error L hlen hs he] at h
            cases h
          | ok cs1 =>
            rw [rowLoop_sanitize_ok L hlen hs he] at h
            have hcs := sanitizeCells_eq_map L _ _ he
            have hclean := sanitizeCells_ok_clean L _ _ he
            subst hcs
            rw [visitedRows_row hs]
            by_cases hk : ((cells r).map (clean L)).getD 0 [] = []
            · rw [if_pos hk] at h
              rw [acceptedRows_skip L hs hk]
              obtain ⟨h1, h2⟩ := ih acc acc1 h
              refine ⟨h1, fun cs hm => ?_⟩
              rcases List.mem_cons.1 hm with h3 | h3
              · subst h3; exact ⟨hlen, hclean⟩
              · exact h2 cs h3
            · rw [if_neg hk] at h
              rw [acceptedRows_accept L hs hk]
              obtain ⟨h1, h2⟩ := ih _ acc1 h
              refine ⟨h1, fun cs hm => ?_⟩
              rcases List.mem_cons.1 hm with h3 | h3
              · subst h3; exact ⟨hlen, hclean⟩
              · exact h2 cs h3
      · rw [rowLoop_malformed L hlen] at h
        cases h

theorem fold_cases (L : Lib) (rows : List (List Str)) :
    ∀ acc : Acc, (rows.foldl (Acc.addRecord L) acc).cases = acc.cases ++ rows.map (recordOf L) := by
  induction rows with
  | nil => intro acc; simp
  | cons r rows ih =>
    intro acc
    rw [List.foldl_cons, ih, List.map_cons]
    show (acc.cases ++ [recordOf L r]) ++ _ = _
    rw [List.append_assoc]
    rfl

theorem fold_keys (L : Lib) (rows : List (List Str)) :
    ∀ acc : Acc, (rows.foldl (Acc.addRecord L) acc).keys = acc.keys ++ rows.map keyOf := by
  induction rows with
  | nil => intro acc; simp
  | cons r rows ih =>
    intro acc
    rw [List.foldl_cons, ih, List.map_cons]
    show (acc.keys ++ [keyOf r]) ++ _ = _
    rw [List.append_assoc]
    rfl

/-! ## The map `funcs` -/

theorem lookupFunc_nil (q : Str) : lookupFunc [] q = [] := rfl

theorem lookupFunc_cons (g : Str) (ks : List Str) (rest : List (Str × List Str)) (q : Str) :
    lookupFunc ((g, ks) :: rest) q = if g = q then ks else lookupFunc rest q := rfl

theorem appendKey_nil (s key : Str) : appendKey [] s key = [(s, [key])] := rfl

theorem appendKey_cons (g : Str) (ks : List Str) (rest : List (Str × List Str))
    (s key : Str) :
    appendKey ((g, ks) :: rest) s key =
      if g = s then (g, ks ++ [key]) :: rest else (g, ks) :: appendKey rest s key := rfl

theorem lookupFunc_appendKey (funcs : List (Str × List Str)) (s key q : Str) :
    lookupFunc (appendKey funcs s key) q =
      if q = s then lookupFunc funcs q ++ [key] else lookupFunc funcs q := by
  induction funcs with
  | nil =>
    rw [appendKey_nil, lookupFunc_cons, lookupFunc_nil]
    by_cases h : s = q
    · subst h; simp
    · have h2 : ¬ q = s := fun e => h e.symm
      simp [h, h2]
  | cons p rest ih =>
    obtain ⟨g, ks⟩ := p
    rw [appendKey_cons]
    by_cases hg : g = s
    · subst hg
      rw [if_pos rfl, lookupFunc_cons, lookupFunc_cons]
      by_cases hq : g = q
      · subst hq; simp
      · have h2 : ¬ q = g := fun e => hq e.symm
        simp [hq, h2]
    · rw [if_neg hg, lookupFunc_cons, lookupFunc_cons, ih]
      by_cases hq : g = q
      · subst hq
        have h2 : ¬ g = s := hg
        simp [h2]
      · simp [hq]

theorem lookupFunc_foldl (key q : Str) (sp : List Str) :
    ∀ funcs : List (Str × List Str),
      lookupFunc (sp.foldl (fun fs s => appendKey fs s key) funcs) q =
        lookupFunc funcs q ++ List.replicate (sp.count q) key := by
  induction sp with
  | nil => intro funcs; simp
  | cons s sp ih =>
    intro funcs
    rw [List.foldl_cons, ih, lookupFunc_appendKey]
    by_cases h : q = s
    · subst h
      rw [if_pos rfl, List.count_cons_self, List.append_assoc]
      rfl
    · have h2 : q ≠ s := h
      rw [if_neg h, List.count_cons_of_ne h2]

theorem funcNames_appendKey (funcs : List (Str × List Str)) (s key q : Str) :
    q ∈ funcNames (appendKey funcs s key) ↔ q = s ∨ q ∈ funcNames funcs := by
  induction funcs with
  | nil => simp [funcNames, appendKey]
  | cons p rest ih =>
    obtain ⟨g, ks⟩ := p
    rw [appendKey_cons]
    by_cases hg : g = s
    · subst hg
      rw [if_pos rfl]
      simp [funcNames]
    · rw [if_neg hg]
      have ih2 : q ∈ List.map Prod.fst (appendKey rest s key) ↔
          q = s ∨ q ∈ List.map Prod.fst rest := ih
      simp only [funcNames, List.map_cons, List.mem_cons, ih2]
      tauto

theorem funcNames_foldl (key q : Str) (sp : List Str) :
    ∀ funcs : List (Str × List Str),
      q ∈ funcNames (sp.foldl (fun fs s => appendKey fs s key) funcs) ↔
        q ∈ sp ∨ q ∈ funcNames funcs := by
  induction sp with
  | nil => intro funcs; simp
  | cons s sp ih =>
    intro funcs
    rw [List.foldl_cons, ih, funcNames_appendKey, List.mem_cons]
    tauto

theorem funcNames_nodup_appendKey (funcs : List (Str × List Str)) (s key : Str)
    (h : (funcNames funcs).Nodup) : (funcNames (appendKey funcs s key)).Nodup := by
  induction funcs with
  | nil => simp [funcNames, appendKey]
  | cons p rest ih =>
    obtain ⟨g, ks⟩ := p
    have h1 : g ∉ funcNames rest ∧ (funcNames rest).Nodup := by
      simpa [funcNames] using h
    rw [appendKey_cons]
    by_cases hg : g = s
    · rw [if_pos hg]
      simpa [funcNames] using h
    · rw [if_neg hg]
      have h3 : g ∉ funcNames (appendKey rest s key) := by
        rw [funcNames_appendKey]
        rintro (e | e)
        · exact hg e
        · exact h1.1 e
      have h4 := ih h1.2
      show (g :: funcNames (appendKey rest s key)).Nodup
      exact List.nodup_cons.2 ⟨h3, h4⟩

theorem funcNames_nodup_foldl (key : Str) (sp : List Str) :
    ∀ funcs : List (Str × List Str), (funcNames funcs).Nodup →
      (funcNames (sp.foldl (fun fs s => appendKey fs s key) funcs)).Nodup := by
  induction sp with
  | nil => intro funcs h; exact h
  | cons s sp ih =>
    intro funcs h
    rw [List.foldl_cons]
    exact ih _ (funcNames_nodup_appendKey funcs s key h)

theorem nonempty_appendKey (funcs : List (Str × List Str)) (s key : Str)
    (h : ∀ p ∈ funcs, p.2 ≠ []) : ∀ p ∈ appendKey funcs s key, p.2 ≠ [] := by
  induction funcs with
  | nil =>
    intro p hp
    simp only [appendKey, List.mem_singleton] at hp
    subst hp
    simp
  | cons p0 rest ih =>
    obtain ⟨g, ks⟩ := p0
    intro p hp
    rw [appendKey_cons] at hp
    by_cases hg : g = s
    · rw [if_pos hg] at hp
      rcases List.mem_cons.1 hp with e | e
      · subst e; simp
      · exact h p (List.mem_cons_of_mem _ e)
    · rw [if_neg hg] at hp
      rcases List.mem_cons.1 hp with e | e
      · subst e; exact h _ (List.mem_cons_self _ _)
      · exact ih (fun p hp => h p (List.mem_cons_of_mem _ hp)) p e

theorem nonempty_foldl (key : Str) (sp : List Str) :
    ∀ funcs : List (Str × List Str), (∀ p ∈ funcs, p.2 ≠ []) →
      ∀ p ∈ sp.foldl (fun fs s => appendKey fs s key) funcs, p.2 ≠ [] := by
  induction sp with
  | nil => intro funcs h; exact h
  | cons s sp ih =>
    intro funcs h
    rw [List.foldl_cons]
    exact ih _ (nonempty_appendKey funcs s key h)

/-- In a map without repeated names, the sequence of an entry is the value of the map at
its name. -/
theorem lookupFunc_of_mem (funcs : List (Str × List Str)) (h : (funcNames funcs).Nodup)
    (p : Str × List Str) (hp : p ∈ funcs) : lookupFunc funcs p.1 = p.2 := by
  induction funcs with
  | nil => simp at hp
  | cons p0 rest ih =>
    obtain ⟨g, ks⟩ := p0
    have h1 : g ∉ funcNames rest ∧ (funcNames rest).Nodup := by
      simpa [funcNames] using h
    rw [lookupFunc_cons]
    rcases List.mem_cons.1 hp with e | e
    · subst e; simp
    · have hne : g ≠ p.1 := by
        intro e2
        apply h1.1
        rw [e2]
        exact List.mem_map_of_mem Prod.fst e
      rw [if_neg hne]
      exact ih h1.2 e

theorem lookupFunc_of_not_mem (funcs : List (Str × List Str)) (q : Str)
    (h : q ∉ funcNames funcs) : lookupFunc funcs q = [] := by
  induction funcs with
  | nil => rfl
  | cons p0 rest ih =>
    obtain ⟨g, ks⟩ := p0
    have h1 : ¬ q = g ∧ q ∉ funcNames rest := by
      simpa [funcNames] using h
    rw [lookupFunc_cons, if_neg (fun e => h1.1 e.symm)]
    exact ih h1.2

theorem addRecord_funcs (L : Lib) (acc : Acc) (r : List Str) :
    (acc.addRecord L r).funcs =
      (recordOf L r).specialFunctions.foldl
        (fun fs s => appendKey fs s (recordOf L r).key) acc.funcs := rfl

theorem fold_funcs (L : Lib) (q : Str) (rows : List (List Str)) :
    ∀ acc : Acc, lookupFunc (rows.foldl (Acc.addRecord L) acc).funcs q =
      lookupFunc acc.funcs q ++ ((rows.map (recordOf L)).map (keysFor q)).flatten := by
  induction rows with
  | nil => intro acc; simp
  | cons r rows ih =>
    intro acc
    rw [List.foldl_cons, ih, addRecord_funcs, lookupFunc_foldl, List.map_cons, List.map_cons,
      List.flatten_cons, List.append_assoc]
    rfl

theorem fold_funcNames (L : Lib) (q : Str) (rows : List (List Str)) :
    ∀ acc : Acc, q ∈ funcNames (rows.foldl (Acc.addRecord L) acc).funcs ↔
      q ∈ funcNames acc.funcs ∨ ∃ e ∈ rows.map (recordOf L), q ∈ e.specialFunctions := by
  induction rows with
  | nil => intro acc; simp
  | cons r rows ih =>
    intro acc
    rw [List.foldl_cons, ih, addRecord_funcs, funcNames_foldl, List.map_cons]
    simp only [List.mem_cons, exists_eq_or_imp]
    tauto

theorem fold_funcNames_nodup (L : Lib) (rows : List (List Str)) :
    ∀ acc : Acc, (funcNames acc.funcs).Nodup →
      (funcNames (rows.foldl (Acc.addRecord L) acc).funcs).Nodup := by
  induction rows with
  | nil => intro acc h; exact h
  | cons r rows ih =>
    intro acc h
    rw [List.foldl_cons]
    apply ih
    rw [addRecord_funcs]
    exact funcNames_nodup_foldl _ _ _ h

theorem fold_funcs_nonempty (L : Lib) (rows : List (List Str)) :
    ∀ acc : Acc, (∀ p ∈ acc.funcs, p.2 ≠ []) →
      ∀ p ∈ (rows.foldl (Acc.addRecord L) acc).funcs, p.2 ≠ [] := by
  induction rows with
  | nil => intro acc h; exact h
  | cons r rows ih =>
    intro acc h
    rw [List.foldl_cons]
    apply ih
    rw [addRecord_funcs]
    exact nonempty_foldl _ _ _ h

/-- Artifact of a table on which the extraction succeeds, in terms of its accepted
rows. -/
theorem buildIndex_ok_fold (L : Lib) (T : Table) (art : Artifact)
    (h : buildIndex L T = .ok art) :
    art = ((acceptedRows L T.children).foldl (Acc.addRecord L) Acc.empty).toArtifact ∧
    ∀ cs ∈ visitedRows T.children,
      cs.length = 3 ∧ ∀ cell ∈ cs, containsSub cell elseDirective = false := by
  unfold buildIndex at h
  cases hr : rowLoop L T.children Acc.empty with
  | error e => rw [hr] at h; cases h
  | ok acc =>
    rw [hr] at h
    simp only [Except.ok.injEq] at h
    obtain ⟨h1, h2⟩ := rowLoop_ok_fold L T.children _ _ hr
    rw [← h1]
    exact ⟨h.symm, h2⟩

theorem buildIndex_cases (L : Lib) (T : Table) (art : Artifact)
    (h : buildIndex L T = .ok art) :
    art.cases = (acceptedRows L T.children).map (recordOf L) := by
  rw [(buildIndex_ok_fold L T art h).1]
  show (List.foldl (Acc.addRecord L) Acc.empty (acceptedRows L T.children)).cases = _
  rw [fold_cases]
  rfl

theorem buildIndex_keys (L : Lib) (T : Table) (art : Artifact)
    (h : buildIndex L T = .ok art) :
    art.keys = sortStrings ((acceptedRows L T.children).map keyOf) := by
  rw [(buildIndex_ok_fold L T art h).1]
  show sortStrings (List.foldl (Acc.addRecord L) Acc.empty (acceptedRows L T.children)).keys = _
  rw [fold_keys]
  rfl

theorem buildIndex_funcs (L : Lib) (T : Table) (art : Artifact)
    (h : buildIndex L T = .ok art) (q : Str) :
    lookupFunc art.funcs q = (art.cases.map (keysFor q)).flatten := by
  rw [buildIndex_cases L T art h, (buildIndex_ok_fold L T art h).1]
  show lookupFunc (List.foldl (Acc.addRecord L) Acc.empty (acceptedRows L T.children)).funcs q = _
  rw [fold_funcs]
  rfl

theorem buildIndex_funcNames (L : Lib) (T : Table) (art : Artifact)
    (h : buildIndex L T = .ok art) (q : Str) :
    q ∈ funcNames art.funcs ↔ ∃ e ∈ art.cases, q ∈ e.specialFunctions := by
  rw [buildIndex_cases L T art h, (buildIndex_ok_fold L T art h).1]
  show q ∈ funcNames (List.foldl (Acc.addRecord L) Acc.empty
    (acceptedRows L T.children)).funcs ↔ _
  rw [fold_funcNames]
  simp [Acc.empty, funcNames]

theorem buildIndex_funcNames_nodup (L : Lib) (T : Table) (art : Artifact)
    (h : buildIndex L T = .ok art) : (funcNames art.funcs).Nodup := by
  rw [(buildIndex_ok_fold L T art h).1]
  exact fold_funcNames_nodup L _ _ (by simp [Acc.empty, funcNames])

theorem buildIndex_funcs_nonempty (L : Lib) (T : Table) (art : Artifact)
    (h : buildIndex L T = .ok art) : ∀ p ∈ art.funcs, p.2 ≠ [] := by
  rw [(buildIndex_ok_fold L T art h).1]
  exact fold_funcs_nonempty L _ _ (by simp [Acc.empty])

/-! ## Rows without a key -/

theorem rowLoop_congr_append (L : Lib) (A B : List TableChild)
    (h : ∀ acc, rowLoop L A acc = rowLoop L B acc) (pre : List TableChild) :
    ∀ acc, rowLoop L (pre ++ A) acc = rowLoop L (pre ++ B) acc := by
  induction pre with
  | nil => exact h
  | cons c pre ih =>
    intro acc
    cases c with
    | other =>
      rw [List.cons_append, List.cons_append, rowLoop_other, rowLoop_other]
      exact ih acc
    | row r =>
      rw [List.cons_append, List.cons_append]
      by_cases hlen : (cells r).length = 3
      · by_cases hs : (cells r).head? = some elseDirective
        · rw [rowLoop_sentinel L hlen hs, rowLoop_sentinel L hlen hs]
        · cases he : sanitizeCells L (cells r) with
          | error e =>
            rw [rowLoop_sanitize_error L hlen hs he, rowLoop_sanitize_error L hlen hs he]
          | ok cs1 =>
            rw [rowLoop_sanitize_ok L hlen hs he, rowLoop_sanitize_ok L hlen hs he]
            by_cases hk : cs1.getD 0 [] = []
            · rw [if_pos hk, if_pos hk]
              exact ih acc
            · rw [if_neg hk, if_neg hk]
              exact ih _
      · rw [rowLoop_malformed L hlen, rowLoop_malformed L hlen]

theorem clean_nil (L : Lib) : clean L [] = [] := rfl

theorem rowLoop_empty_key (L : Lib) {r : List RowChild} {c1 c2 : Str}
    (hr : cells r = [[], c1, c2])
    (h1 : containsSub c1 elseDirective = false) (h2 : containsSub c2 elseDirective = false)
    (rest : List TableChild) (acc : Acc) :
    rowLoop L (.row r :: rest) acc = rowLoop L rest acc := by
  have hlen : (cells r).length = 3 := by rw [hr]; rfl
  have hs : (cells r).head? ≠ some elseDirective := by
    rw [hr]
    intro e
    simp only [List.head?_cons, Option.some.injEq] at e
    exact absurd e (by decide)
  have he : sanitizeCells L (cells r) = .ok ((cells r).map (clean L)) := by
    apply sanitizeCells_ok
    intro cell hm
    rw [hr] at hm
    simp only [List.mem_cons, List.mem_singleton, List.not_mem_nil, or_false] at hm
    rcases hm with e | e | e
    · subst e; rfl
    · subst e; exact h1
    · subst e; exact h2
  rw [rowLoop_sanitize_ok L hlen hs he, hr]
  rfl

/-- Claim C11, counterexample: the second row has an empty first cell and a second cell
with an embedded conditional; `generate` fails on the table and succeeds on the table
without that row. -/
theorem empty_key_row_with_else_fails :
    generate asciiLib recordWrite emptyKeyElseDoc [] =
      (.error (.unsupportedDirective embeddedElseCell), []) ∧
    generate asciiLib recordWrite sentinelCutDoc [] = (.ok (), ["on".toList]) :=
  ⟨rfl, rfl⟩

/-- Claim C11, amended: a three-cell row with an empty first cell whose second and third
cells do not contain the else directive is skipped: `generate` gives the result it gives
on the table without that row. When the second or third cell contains the else directive
and no sentinel row stands before the row, `generate` fails and writes nothing. -/
theorem empty_key_row_skipped {ω : Type} (L : Lib) (write : ω → Str → ω × Bool) (out : ω)
    (src1 : List Block) (pre post : List TableChild) (r : List RowChild) (c1 c2 : Str)
    (h1 : parseContextAvailabilityTable src1 = some ⟨pre ++ .row r :: post⟩)
    (hr : cells r = [[], c1, c2]) :
    (containsSub c1 elseDirective = false → containsSub c2 elseDirective = false →
      buildIndex L ⟨pre ++ .row r :: post⟩ = buildIndex L ⟨pre ++ post⟩ ∧
      ∀ src2, parseContextAvailabilityTable src2 = some ⟨pre ++ post⟩ →
        generate L write src1 out = generate L write src2 out) ∧
    ((containsSub c1 elseDirective = true ∨ containsSub c2 elseDirective = true) →
      (∀ c ∈ pre, ∀ cs, rowCells c = some cs →
        ¬ (cs.length = 3 ∧ cs.head? = some elseDirective)) →
      ∃ e, generate L write src1 out = (.error e, out)) := by
  constructor
  · intro hc1 hc2
    have hloop : rowLoop L (pre ++ .row r :: post) Acc.empty =
        rowLoop L (pre ++ post) Acc.empty :=
      rowLoop_congr_append L _ _ (rowLoop_empty_key L hr hc1 hc2 post) pre Acc.empty
    exact ⟨by simp [buildIndex, hloop],
      fun src2 h2 => generate_of_rowLoop_eq L write h1 h2 hloop out⟩
  · intro hc hpre
    have hlen : (cells r).length = 3 := by rw [hr]; rfl
    have hs : (cells r).head? ≠ some elseDirective := by
      rw [hr]
      intro e
      simp only [List.head?_cons, Option.some.injEq] at e
      exact absurd e (by decide)
    have hd : ∃ cell ∈ cells r, containsSub cell elseDirective = true := by
      rw [hr]
      rcases hc with h | h
      · exact ⟨c1, by simp, h⟩
      · exact ⟨c2, by simp, h⟩
    obtain ⟨cell, hm, hcell⟩ := hd
    obtain ⟨c, hcs⟩ := sanitizeCells_of_contains L (cells r) hm hcell
    rcases rowLoop_append L pre hpre Acc.empty with ⟨e, he, _⟩ | ⟨acc1, h3⟩
    · exact ⟨e, generate_of_rowLoop_error L write h1 (he _) out⟩
    · exact ⟨_, generate_of_rowLoop_error L write h1
        ((h3 _).trans (rowLoop_sanitize_error L hlen hs hcs post acc1)) out⟩

/-- Witness for claim C11: the row with an empty first cell stands between two accepted
rows and names a context and a special function. -/
theorem empty_key_row_skipped_witness :
    generate asciiLib recordWrite emptyKeyDoc [] =
      generate asciiLib recordWrite emptyKeyRemovedDoc [] :=
  ((empty_key_row_skipped asciiLib recordWrite [] emptyKeyDoc
    [.other, .row [.cell "on".toList, .cell "github".toList, .cell []]]
    [.row [.cell "env".toList, .cell "github".toList, .cell "always".toList]]
    [.cell [], .cell "needs".toList, .cell "always".toList]
    "needs".toList "always".toList rfl rfl).1 (by decide) (by decide)).2
    emptyKeyRemovedDoc rfl

/-! ## Keys -/

theorem generate_ok_artifact {ω : Type} (L : Lib) (write : ω → Str → ω × Bool)
    {src : List Block} {T : Table} (hp : parseContextAvailabilityTable src = some T)
    (out : ω) (hgen : (generate L write src out).1 = .ok ()) :
    ∃ art, buildIndex L T = .ok art ∧ L.formatSource art ≠ none := by
  unfold generate at hgen
  simp only [hp] at hgen
  cases hb : buildIndex L T with
  | error e => rw [hb] at hgen; cases hgen
  | ok art =>
    refine ⟨art, rfl, ?_⟩
    simp only [hb] at hgen
    intro hf
    rw [hf] at hgen
    cases hgen

theorem keyOf_map_clean (L : Lib) (cs : List Str) :
    keyOf (cs.map (clean L)) = clean L (cs.getD 0 []) := by
  cases cs with
  | nil => rfl
  | cons c rest => rfl

theorem map_keyOf_filter (L : Lib) (vs : List (List Str)) :
    ((vs.map (fun cs => cs.map (clean L))).filter hasKey).map keyOf =
      (vs.map (fun cs => clean L (cs.getD 0 []))).filter nonEmptyKey := by
  induction vs with
  | nil => rfl
  | cons cs vs ih =>
    rw [List.map_cons, List.map_cons]
    by_cases hk : clean L (cs.getD 0 []) = []
    · have h1 : ¬ (hasKey (cs.map (clean L)) = true) := by
        have h0 : hasKey (cs.map (clean L)) = (keyOf (cs.map (clean L)) != []) := rfl
        rw [h0, keyOf_map_clean, hk]
        decide
      have h2 : ¬ (nonEmptyKey (clean L (cs.getD 0 [])) = true) := by
        unfold nonEmptyKey
        rw [hk]
        decide
      rw [List.filter_cons_of_neg h1, List.filter_cons_of_neg h2]
      exact ih
    · have h1 : hasKey (cs.map (clean L)) = true := by
        have h0 : hasKey (cs.map (clean L)) = (keyOf (cs.map (clean L)) != []) := rfl
        rw [h0, keyOf_map_clean]
        exact bne_iff_ne.2 hk
      have h2 : nonEmptyKey (clean L (cs.getD 0 [])) = true :=
        bne_iff_ne.2 hk
      rw [List.filter_cons_of_pos h1, List.filter_cons_of_pos h2, List.map_cons,
        keyOf_map_clean, ih]

theorem acceptedRows_keys (L : Lib) (children : List TableChild) :
    (acceptedRows L children).map keyOf = acceptedKeys L children :=
  map_keyOf_filter L (visitedRows children)

theorem recordOf_key (L : Lib) (r : List Str) : (recordOf L r).key = keyOf r := rfl

theorem buildIndex_case_keys (L : Lib) (T : Table) (art : Artifact)
    (h : buildIndex L T = .ok art) :
    art.cases.map (fun e => e.key) = acceptedKeys L T.children := by
  rw [buildIndex_cases L T art h, List.map_map, ← acceptedRows_keys]
  rfl

theorem mem_keysFor {q k : Str} {e : CaseEntry} (h : k ∈ keysFor q e) :
    k = e.key ∧ q ∈ e.specialFunctions := by
  unfold keysFor at h
  obtain ⟨h1, h2⟩ := List.mem_replicate.1 h
  exact ⟨h2, List.count_pos_iff.1 (Nat.pos_of_ne_zero h1)⟩

theorem buildIndex_funcs_mem (L : Lib) (T : Table) (art : Artifact)
    (h : buildIndex L T = .ok art) (q k : Str) (hk : k ∈ lookupFunc art.funcs q) :
    ∃ e ∈ art.cases, e.key = k ∧ q ∈ e.specialFunctions := by
  rw [buildIndex_funcs L T art h q] at hk
  obtain ⟨l, hl, hkl⟩ := List.mem_flatten.1 hk
  obtain ⟨e, he, rfl⟩ := List.mem_map.1 hl
  obtain ⟨h1, h2⟩ := mem_keysFor hkl
  exact ⟨e, he, h1.symm, h2⟩

/-- Claim C12, counterexample: the first cells leave " on" and " " once the placeholders
are removed; these texts are the keys, untrimmed, and the row with the blank key is
accepted. -/
theorem key_keeps_white_space :
    (∀ L : Lib, buildIndex L untrimmedKeyTable =
      .ok ⟨[⟨" on".toList, ["github".toList], []⟩, ⟨" ".toList, ["needs".toList], []⟩],
        [], [" ".toList, " on".toList]⟩) ∧
    trimSpace " on".toList = "on".toList ∧ trimSpace " ".toList = [] :=
  ⟨fun _ => rfl, by decide, by decide⟩

/-- Claim C12, amended: when `generate` succeeds, the keys of the case entries are, in
table order, the sanitized first cells of the visited rows that are not the empty string,
exactly as the sanitizer returns them (not trimmed, not split, not lower-cased); the
sorted key list is the sorted sequence of these keys and every key of a reverse-index
sequence is one of them. A row is skipped only when its sanitized first cell is the empty
string. -/
theorem key_is_sanitized_first_cell {ω : Type} (L : Lib) (write : ω → Str → ω × Bool)
    (out : ω) (src : List Block) (T : Table)
    (hp : parseContextAvailabilityTable src = some T)
    (hgen : (generate L write src out).1 = .ok ()) :
    ∃ art, buildIndex L T = .ok art ∧
      art.cases.map (fun e => e.key) = acceptedKeys L T.children ∧
      art.keys = sortStrings (acceptedKeys L T.children) ∧
      ∀ q k, k ∈ lookupFunc art.funcs q → k ∈ acceptedKeys L T.children := by
  obtain ⟨art, hb, _⟩ := generate_ok_artifact L write hp out hgen
  refine ⟨art, hb, buildIndex_case_keys L T art hb, ?_, ?_⟩
  · rw [buildIndex_keys L T art hb, acceptedRows_keys]
  · intro q k hk
    obtain ⟨e, he, h1, _⟩ := buildIndex_funcs_mem L T art hb q k hk
    rw [← buildIndex_case_keys L T art hb, ← h1]
    exact List.mem_map_of_mem (fun e => e.key) he

/-- Witness for claim C12: the keys of the table with untrimmed first cells. -/
theorem key_is_sanitized_first_cell_witness :
    ∃ art, buildIndex asciiLib untrimmedKeyTable = .ok art ∧
      art.cases.map (fun e => e.key) = [" on".toList, " ".toList] ∧
      art.keys = sortStrings [" on".toList, " ".toList] ∧
      ∀ q k, k ∈ lookupFunc art.funcs q → k ∈ [" on".toList, " ".toList] :=
  key_is_sanitized_first_cell asciiLib recordWrite []
    [.heading 3 targetHeading, .table untrimmedKeyTable] untrimmedKeyTable rfl rfl

/-! ## Reverse index -/

theorem keysFor_recordOf (L : Lib) (q : Str) (r : List Str) :
    keysFor q (recordOf L r) =
      List.replicate ((split L (r.getD 2 [])).count q) (keyOf r) := rfl

/-- Claim C13. When `generate` succeeds, the reverse-index sequence of a function name is
the concatenation, over the accepted rows in table order, of the key of the row repeated
once for each occurrence of the name in the special functions of the row; the map has an
entry for a name exactly when some accepted row has it among its special functions, and
no name has two entries. -/
theorem reverse_index_spec {ω : Type} (L : Lib) (write : ω → Str → ω × Bool)
    (out : ω) (src : List Block) (T : Table)
    (hp : parseContextAvailabilityTable src = some T)
    (hgen : (generate L write src out).1 = .ok ()) :
    ∃ art, buildIndex L T = .ok art ∧
      (∀ q, lookupFunc art.funcs q =
        ((acceptedRows L T.children).map (fun r =>
          List.replicate ((split L (r.getD 2 [])).count q) (keyOf r))).flatten) ∧
      (∀ q, q ∈ funcNames art.funcs ↔
        ∃ r ∈ acceptedRows L T.children, q ∈ split L (r.getD 2 [])) ∧
      (∀ q, q ∉ funcNames art.funcs → lookupFunc art.funcs q = []) ∧
      (funcNames art.funcs).Nodup := by
  obtain ⟨art, hb, _⟩ := generate_ok_artifact L write hp out hgen
  refine ⟨art, hb, fun q => ?_, fun q => ?_, fun q hq => lookupFunc_of_not_mem _ q hq,
    buildIndex_funcNames_nodup L T art hb⟩
  · rw [buildIndex_funcs L T art hb q, buildIndex_cases L T art hb, List.map_map]
    rfl
  · rw [buildIndex_funcNames L T art hb q, buildIndex_cases L T art hb]
    constructor
    · rintro ⟨e, he, hq⟩
      obtain ⟨r, hr, rfl⟩ := List.mem_map.1 he
      exact ⟨r, hr, hq⟩
    · rintro ⟨r, hr, hq⟩
      exact ⟨recordOf L r, List.mem_map_of_mem _ hr, hq⟩

/-- Witness for claim C13: the sequence of `always` lists `run` before `env`, the order
of the rows, and `never` has no entry. -/
theorem reverse_index_spec_witness :
    ∃ art, buildIndex asciiLib orderTable = .ok art ∧
      lookupFunc art.funcs "always".toList = ["run".toList, "env".toList] ∧
      "never".toList ∉ funcNames art.funcs := by
  obtain ⟨art, hb, h1, h2, _, _⟩ := reverse_index_spec asciiLib recordWrite []
    [.heading 3 targetHeading, .table orderTable] orderTable rfl rfl
  refine ⟨art, hb, ?_, ?_⟩
  · rw [h1]
    rfl
  · rw [h2]
    decide

/-! ## Sorted key list -/

theorem mem_acceptedKeys (L : Lib) (children : List TableChild) (k : Str) :
    k ∈ acceptedKeys L children ↔
      k ≠ [] ∧ ∃ cs ∈ visitedRows children, clean L (cs.getD 0 []) = k := by
  unfold acceptedKeys
  rw [List.mem_filter, List.mem_map]
  constructor
  · rintro ⟨h1, h2⟩
    exact ⟨bne_iff_ne.1 h2, h1⟩
  · rintro ⟨h1, h2⟩
    exact ⟨h2, bne_iff_ne.2 h1⟩

/-- Claim C14. When `generate` succeeds, the sorted key list is in ascending order and
its members are the keys of the accepted rows: the non-empty sanitized first cells of the
three-cell rows that stand before the sentinel row. -/
theorem sorted_key_list_spec {ω : Type} (L : Lib) (write : ω → Str → ω × Bool)
    (out : ω) (src : List Block) (T : Table)
    (hp : parseContextAvailabilityTable src = some T)
    (hgen : (generate L write src out).1 = .ok ()) :
    ∃ art, buildIndex L T = .ok art ∧
      List.Sorted (fun a b : Str => a ≤ b) art.keys ∧
      (∀ k, k ∈ art.keys ↔ ∃ r ∈ acceptedRows L T.children, keyOf r = k) ∧
      (∀ k, k ∈ art.keys ↔
        k ≠ [] ∧ ∃ cs ∈ visitedRows T.children,
          cs.length = 3 ∧ clean L (cs.getD 0 []) = k) := by
  obtain ⟨art, hb, _⟩ := generate_ok_artifact L write hp out hgen
  have hk := buildIndex_keys L T art hb
  have hmem : ∀ k, k ∈ art.keys ↔ k ∈ (acceptedRows L T.children).map keyOf := by
    intro k
    rw [hk]
    exact (sortStrings_perm _).mem_iff
  refine ⟨art, hb, ?_, fun k => ?_, fun k => ?_⟩
  · rw [hk]
    exact sortStrings_sorted _
  · rw [hmem k, List.mem_map]
  · rw [hmem k, acceptedRows_keys, mem_acceptedKeys]
    constructor
    · rintro ⟨h1, cs, h2, h3⟩
      exact ⟨h1, cs, h2, ((buildIndex_ok_fold L T art hb).2 cs h2).1, h3⟩
    · rintro ⟨h1, cs, h2, _, h3⟩
      exact ⟨h1, cs, h2, h3⟩

/-- Witness for claim C14: the keys `run` and `env` come out as `env`, `run`. -/
theorem sorted_key_list_spec_witness :
    ∃ art, buildIndex asciiLib orderTable = .ok art ∧
      art.keys = ["env".toList, "run".toList] ∧
      List.Sorted (fun a b : Str => a ≤ b) art.keys := by
  obtain ⟨art, hb, h1, _, _⟩ := sorted_key_list_spec asciiLib recordWrite []
    [.heading 3 targetHeading, .table orderTable] orderTable rfl rfl
  refine ⟨art, hb, ?_, h1⟩
  have h2 : buildIndex asciiLib orderTable =
      .ok ⟨[⟨"run".toList, ["github".toList], ["always".toList]⟩,
          ⟨"env".toList, ["github".toList], ["always".toList]⟩],
        [("always".toList, ["run".toList, "env".toList])],
        ["env".toList, "run".toList]⟩ := rfl
  rw [h2] at hb
  simp only [Except.ok.injEq] at hb
  rw [← hb]

theorem str_count_perm {l1 l2 : List Str} (h : List.Perm l1 l2) (k : Str) :
    l1.count k = l2.count k :=
  h.countP_eq _

theorem str_count_one_of_nodup (l : List Str) (k : Str) (hnd : l.Nodup) (hk : k ∈ l) :
    l.count k = 1 := by
  induction l with
  | nil => simp at hk
  | cons x rest ih =>
    obtain ⟨h1, h2⟩ := List.nodup_cons.1 hnd
    by_cases hx : x = k
    · subst hx
      rw [List.count_cons_self, List.count_eq_zero.2 h1]
    · rw [List.count_cons_of_ne (fun e => hx e.symm)]
      rcases List.mem_cons.1 hk with e | e
      · exact absurd e.symm hx
      · exact ih h2 e

/-- Claim C15, counterexample: two accepted rows have the key `on`; the sorted key list
holds `on` twice. -/
theorem duplicate_key_listed_twice :
    (∀ L : Lib, buildIndex L duplicateKeyTable =
      .ok ⟨[⟨"on".toList, ["github".toList], ["always".toList]⟩,
          ⟨"on".toList, ["needs".toList], ["always".toList]⟩],
        [("always".toList, ["on".toList, "on".toList])],
        ["on".toList, "on".toList]⟩) ∧
    List.count "on".toList ["on".toList, "on".toList] = 2 ∧
    ¬ (["on".toList, "on".toList] : List Str).Nodup :=
  ⟨fun _ => rfl, by decide, by decide⟩

/-- Claim C15, amended: when `generate` succeeds, the sorted key list is a rearrangement
of the sequence of the keys of the accepted rows, so a key occurs in it once for each
accepted row with that key; it occurs exactly once when no two accepted rows have the
same key. -/
theorem sorted_key_list_counts {ω : Type} (L : Lib) (write : ω → Str → ω × Bool)
    (out : ω) (src : List Block) (T : Table)
    (hp : parseContextAvailabilityTable src = some T)
    (hgen : (generate L write src out).1 = .ok ()) :
    ∃ art, buildIndex L T = .ok art ∧
      List.Perm art.keys (acceptedKeys L T.children) ∧
      (∀ k, art.keys.count k = (acceptedKeys L T.children).count k) ∧
      ((acceptedKeys L T.children).Nodup →
        art.keys.Nodup ∧ ∀ k ∈ acceptedKeys L T.children, art.keys.count k = 1) := by
  obtain ⟨art, hb, _⟩ := generate_ok_artifact L write hp out hgen
  have hperm : List.Perm art.keys (acceptedKeys L T.children) := by
    rw [buildIndex_keys L T art hb, acceptedRows_keys]
    exact sortStrings_perm _
  refine ⟨art, hb, hperm, fun k => str_count_perm hperm k, fun hnd => ⟨?_, fun k hk => ?_⟩⟩
  · exact hperm.nodup_iff.2 hnd
  · rw [str_count_perm hperm k]
    exact str_count_one_of_nodup _ k hnd hk

/-- Witness for claim C15: the keys `run` and `env` are distinct and each is listed
once. -/
theorem sorted_key_list_counts_witness :
    ∃ art, buildIndex asciiLib orderTable = .ok art ∧
      art.keys.count "run".toList = 1 ∧ art.keys.count "env".toList = 1 := by
  obtain ⟨art, hb, _, _, h3⟩ := sorted_key_list_counts asciiLib recordWrite []
    [.heading 3 targetHeading, .table orderTable] orderTable rfl rfl
  have h4 := (h3 (by decide)).2
  exact ⟨art, hb, h4 _ (by decide), h4 _ (by decide)⟩

/-! ## Keyed lookup -/

theorem switchCases_cons (e : CaseEntry) (rest : List CaseEntry) (k : Str) :
    switchCases (e :: rest) k =
      if e.key = k then (e.contexts, e.specialFunctions) else switchCases rest k := rfl

theorem switchCases_of_not_mem (cases : List CaseEntry) (k : Str)
    (h : ∀ e ∈ cases, e.key ≠ k) : switchCases cases k = ([], []) := by
  induction cases with
  | nil => rfl
  | cons e rest ih =>
    rw [switchCases_cons, if_neg (h e (List.mem_cons_self _ _))]
    exact ih (fun x hx => h x (List.mem_cons_of_mem _ hx))

theorem switchCases_of_mem (cases : List CaseEntry) (e : CaseEntry)
    (he : e ∈ cases) (hnd : (cases.map (fun x => x.key)).Nodup) :
    switchCases cases e.key = (e.contexts, e.specialFunctions) := by
  induction cases with
  | nil => simp at he
  | cons x rest ih =>
    rw [List.map_cons] at hnd
    obtain ⟨h1, h2⟩ := List.nodup_cons.1 hnd
    rw [switchCases_cons]
    rcases List.mem_cons.1 he with e1 | e1
    · rw [e1, if_pos rfl]
    · have hx : x.key ≠ e.key := by
        intro e2
        apply h1
        rw [e2]
        exact List.mem_map_of_mem (fun x => x.key) e1
      rw [if_neg hx]
      exact ih e1 h2

theorem contextAvailability_of_nodup (cases : List CaseEntry) (k : Str)
    (h : (cases.map (fun e => e.key)).Nodup) :
    contextAvailability cases k = some (switchCases cases k) := by
  unfold contextAvailability
  rw [if_pos h]

theorem contextAvailability_of_dup (cases : List CaseEntry) (k : Str)
    (h : ¬ (cases.map (fun e => e.key)).Nodup) :
    contextAvailability cases k = none := by
  unfold contextAvailability
  rw [if_neg h]

/-- Claim C16, counterexample: two accepted rows have the key `on`; `generate` succeeds,
the switch holds two cases for `on`, the second with the record of the last row, and the
emitted source defines no lookup: the record of the last row is not returned. -/
theorem duplicate_key_two_cases :
    ∃ art, buildIndex asciiLib duplicateKeyTable = .ok art ∧
      (generate asciiLib recordWrite
        [.heading 3 targetHeading, .table duplicateKeyTable] []).1 = .ok () ∧
      art.cases = [⟨"on".toList, ["github".toList], ["always".toList]⟩,
        ⟨"on".toList, ["needs".toList], ["always".toList]⟩] ∧
      (art.cases.filter (fun e => e.key == "on".toList)).length = 2 ∧
      contextAvailability art.cases "on".toList ≠
        some (["needs".toList], ["always".toList]) :=
  ⟨_, rfl, rfl, rfl, by decide, by decide⟩

/-- Claim C16, amended: when `generate` succeeds, the switch has one case entry for each
accepted row, in table order, and nothing is overwritten, so a key has as many cases as
there are accepted rows with that key. When no two accepted rows have the same key, the
lookup of the key of a case entry returns the record of that entry; when two accepted
rows have the same key, the emitted source defines no lookup. -/
theorem keyed_lookup_cases {ω : Type} (L : Lib) (write : ω → Str → ω × Bool)
    (out : ω) (src : List Block) (T : Table)
    (hp : parseContextAvailabilityTable src = some T)
    (hgen : (generate L write src out).1 = .ok ()) :
    ∃ art, buildIndex L T = .ok art ∧
      art.cases = (acceptedRows L T.children).map (recordOf L) ∧
      (∀ k, (art.cases.map (fun e => e.key)).count k =
        (acceptedKeys L T.children).count k) ∧
      ((acceptedKeys L T.children).Nodup →
        ∀ e ∈ art.cases,
          contextAvailability art.cases e.key = some (e.contexts, e.specialFunctions)) ∧
      (¬ (acceptedKeys L T.children).Nodup →
        ∀ k, contextAvailability art.cases k = none) := by
  obtain ⟨art, hb, _⟩ := generate_ok_artifact L write hp out hgen
  have hk := buildIndex_case_keys L T art hb
  refine ⟨art, hb, buildIndex_cases L T art hb, fun k => by rw [hk], fun hnd e he => ?_,
    fun hnd k => ?_⟩
  · rw [← hk] at hnd
    rw [contextAvailability_of_nodup _ _ hnd, switchCases_of_mem _ e he hnd]
  · rw [← hk] at hnd
    exact contextAvailability_of_dup _ _ hnd

/-- Witness for claim C16: the keys `run` and `env` are distinct; the lookup of `env`
returns the record of its row. -/
theorem keyed_lookup_cases_witness :
    ∃ art, buildIndex asciiLib orderTable = .ok art ∧
      contextAvailability art.cases "env".toList =
        some (["github".toList], ["always".toList]) := by
  obtain ⟨art, hb, hc, _, h3, _⟩ := keyed_lookup_cases asciiLib recordWrite []
    [.heading 3 targetHeading, .table orderTable] orderTable rfl rfl
  refine ⟨art, hb, ?_⟩
  exact h3 (by decide) ⟨"env".toList, ["github".toList], ["always".toList]⟩
    (by rw [hc]; decide)

/-- Claim C17, counterexample: two accepted rows have the key `on` and `generate`
succeeds; `jobs` is not the key of an accepted row, yet the emitted source, which has two
cases for `on`, defines no lookup, so the pair of empty sequences is not returned. -/
theorem duplicate_key_no_lookup :
    ∃ art, buildIndex asciiLib duplicateKeyTable = .ok art ∧
      (generate asciiLib recordWrite
        [.heading 3 targetHeading, .table duplicateKeyTable] []).1 = .ok () ∧
      (∀ r ∈ acceptedRows asciiLib duplicateKeyTable.children, keyOf r ≠ "jobs".toList) ∧
      ¬ (art.cases.map (fun e => e.key)).Nodup ∧
      contextAvailability art.cases "jobs".toList ≠ some ([], []) :=
  ⟨_, rfl, rfl, by decide, by decide, by decide⟩

/-- Claim C17, amended: when `generate` succeeds and no two accepted rows have the same
key, the lookup of a key that is not the key of an accepted row returns two empty
sequences, and the lookup of the key of an accepted row returns the contexts and the
special functions of that row. -/
theorem keyed_lookup_spec {ω : Type} (L : Lib) (write : ω → Str → ω × Bool)
    (out : ω) (src : List Block) (T : Table)
    (hp : parseContextAvailabilityTable src = some T)
    (hgen : (generate L write src out).1 = .ok ())
    (hnd : (acceptedKeys L T.children).Nodup) :
    ∃ art, buildIndex L T = .ok art ∧
      (∀ k, (∀ r ∈ acceptedRows L T.children, keyOf r ≠ k) →
        contextAvailability art.cases k = some ([], [])) ∧
      (∀ r ∈ acceptedRows L T.children,
        contextAvailability art.cases (keyOf r) =
          some (split L (r.getD 1 []), split L (r.getD 2 []))) := by
  obtain ⟨art, hb, _⟩ := generate_ok_artifact L write hp out hgen
  have hc := buildIndex_cases L T art hb
  have hk := buildIndex_case_keys L T art hb
  rw [← hk] at hnd
  refine ⟨art, hb, fun k hk2 => ?_, fun r hr => ?_⟩
  · rw [contextAvailability_of_nodup _ _ hnd]
    congr 1
    apply switchCases_of_not_mem
    intro e he
    rw [hc] at he
    obtain ⟨r, hr, rfl⟩ := List.mem_map.1 he
    exact hk2 r hr
  · have he : recordOf L r ∈ art.cases := by
      rw [hc]
      exact List.mem_map_of_mem _ hr
    rw [contextAvailability_of_nodup _ _ hnd]
    congr 1
    exact switchCases_of_mem art.cases (recordOf L r) he hnd

/-- Witness for claim C17: `jobs` is not a key of the table and `run` is the key of one
row. -/
theorem keyed_lookup_spec_witness :
    ∃ art, buildIndex asciiLib orderTable = .ok art ∧
      contextAvailability art.cases "jobs".toList = some ([], []) ∧
      contextAvailability art.cases "run".toList =
        some (["github".toList], ["always".toList]) := by
  obtain ⟨art, hb, h1, h2⟩ := keyed_lookup_spec asciiLib recordWrite []
    [.heading 3 targetHeading, .table orderTable] orderTable rfl rfl (by decide)
  exact ⟨art, hb, h1 _ (by decide),
    h2 ["run".toList, "github".toList, "always".toList] (by decide)⟩

/-! ## Tables that differ in the order of their rows -/

theorem visitedRows_of_no_sentinel (children : List TableChild)
    (h : ∀ c ∈ children, ∀ cs, rowCells c = some cs → cs.head? ≠ some elseDirective) :
    visitedRows children = children.filterMap rowCells := by
  unfold visitedRows
  apply List.takeWhile_eq_self_iff.2
  intro cs hcs
  obtain ⟨c, hc, hcc⟩ := List.mem_filterMap.1 hcs
  exact bne_iff_ne.2 (h c hc cs hcc)

theorem rowLoop_error_kind (L : Lib) (children : List TableChild) :
    ∀ (acc : Acc) (e : GenError), rowLoop L children acc = .error e →
      isExtractionError e = true := by
  induction children with
  | nil => intro acc e h; simp [rowLoop] at h
  | cons c rest ih =>
    intro acc e h
    cases c with
    | other => exact ih acc e (by rwa [rowLoop_other] at h)
    | row r =>
      by_cases hlen : (cells r).length = 3
      · by_cases hs : (cells r).head? = some elseDirective
        · rw [rowLoop_sentinel L hlen hs] at h
          cases h
        · cases he : sanitizeCells L (cells r) with
          | error e1 =>
            rw [rowLoop_sanitize_error L hlen hs he] at h
            simp only [Except.error.injEq] at h
            subst h
            obtain ⟨cell, _, _, h2⟩ := sanitizeCells_error L _ _ he
            rw [h2]
            rfl
          | ok cs1 =>
            rw [rowLoop_sanitize_ok L hlen hs he] at h
            by_cases hk : cs1.getD 0 [] = []
            · rw [if_pos hk] at h
              exact ih _ e h
            · rw [if_neg hk] at h
              exact ih _ e h
      · rw [rowLoop_malformed L hlen] at h
        simp only [Except.error.injEq] at h
        rw [← h]
        rfl

/-- On a table of three-cell rows without sentinel row the extraction succeeds exactly
when no cell contains the else directive. -/
theorem buildIndex_ok_iff_clean (L : Lib) (T : Table)
    (h3 : ∀ c ∈ T.children, ∀ cs, rowCells c = some cs →
      cs.length = 3 ∧ cs.head? ≠ some elseDirective) :
    (∃ art, buildIndex L T = .ok art) ↔
      ∀ cs ∈ T.children.filterMap rowCells,
        ∀ cell ∈ cs, containsSub cell elseDirective = false := by
  have hv : visitedRows T.children = T.children.filterMap rowCells :=
    visitedRows_of_no_sentinel _ (fun c hc cs h => (h3 c hc cs h).2)
  constructor
  · rintro ⟨art, hb⟩ cs hcs cell hcell
    rw [← hv] at hcs
    exact ((buildIndex_ok_fold L T art hb).2 cs hcs).2 cell hcell
  · intro hclean
    have hns : ∀ c ∈ T.children, ∀ cs, rowCells c = some cs →
        ¬ (cs.length = 3 ∧ cs.head? = some elseDirective) :=
      fun c hc cs h1 h2 => (h3 c hc cs h1).2 h2.2
    rcases rowLoop_append L T.children hns Acc.empty with ⟨e, he, hk⟩ | ⟨acc1, h1⟩
    · exfalso
      rcases hk with ⟨c, hc, cs, h1, h2, _⟩ | ⟨c, hc, cs, h1, cell, h2, h4, _⟩
      · exact h2 (h3 c hc cs h1).1
      · have hd := hclean cs (List.mem_filterMap.2 ⟨c, hc, h1⟩) cell h2
        rw [hd] at h4
        cases h4
    · have h2 := h1 []
      rw [List.append_nil] at h2
      refine ⟨acc1.toArtifact, ?_⟩
      unfold buildIndex
      rw [h2]
      rfl

theorem buildIndex_error_kind (L : Lib) (T : Table) (e : GenError)
    (h : buildIndex L T = .error e) : isExtractionError e = true := by
  unfold buildIndex at h
  cases hr : rowLoop L T.children Acc.empty with
  | error e1 =>
    rw [hr] at h
    simp only [Except.error.injEq] at h
    subst h
    exact rowLoop_error_kind L _ _ _ hr
  | ok acc => rw [hr] at h; cases h

theorem generate_of_buildIndex_error {ω : Type} (L : Lib) (write : ω → Str → ω × Bool)
    {src : List Block} {T : Table} (hp : parseContextAvailabilityTable src = some T)
    {e : GenError} (he : buildIndex L T = .error e) (out : ω) :
    generate L write src out = (.error e, out) := by
  simp [generate, hp, he]

theorem generate_of_buildIndex_ok {ω : Type} (L : Lib) (write : ω → Str → ω × Bool)
    {src : List Block} {T : Table} (hp : parseContextAvailabilityTable src = some T)
    {art : Artifact} (hb : buildIndex L T = .ok art) (out : ω) :
    (generate L write src out).1 = .ok () ∨
      (generate L write src out).1 = .error .formatError ∨
      (generate L write src out).1 = .error .writeError := by
  unfold generate
  simp only [hp, hb]
  cases hf : L.formatSource art with
  | none => exact Or.inr (Or.inl rfl)
  | some formatted =>
    rcases hw : write out formatted with ⟨out1, ok⟩
    cases ok
    · exact Or.inr (Or.inr (by simp only [hw]))
    · exact Or.inl (by simp only [hw])

theorem generate_ok_of_total {ω : Type} (L : Lib) (write : ω → Str → ω × Bool)
    {src : List Block} {T : Table} (hp : parseContextAvailabilityTable src = some T)
    {art : Artifact} (hb : buildIndex L T = .ok art) (out : ω)
    (hfmt : ∀ a, L.formatSource a ≠ none) (hw : ∀ o s, (write o s).2 = true) :
    (generate L write src out).1 = .ok () := by
  unfold generate
  simp only [hp, hb]
  cases hf : L.formatSource art with
  | none => exact absurd hf (hfmt art)
  | some formatted =>
    rcases hw2 : write out formatted with ⟨out1, ok⟩
    have h3 := hw out formatted
    rw [hw2] at h3
    simp only at h3
    subst h3
    simp only [hw2]

theorem acceptedKeys_perm (L : Lib) {c1 c2 : List TableChild}
    (hperm : List.Perm c1 c2)
    (h3 : ∀ c ∈ c1, ∀ cs, rowCells c = some cs → cs.head? ≠ some elseDirective) :
    List.Perm (acceptedKeys L c1) (acceptedKeys L c2) := by
  have h4 : ∀ c ∈ c2, ∀ cs, rowCells c = some cs → cs.head? ≠ some elseDirective :=
    fun c hc => h3 c (hperm.mem_iff.2 hc)
  unfold acceptedKeys
  rw [visitedRows_of_no_sentinel c1 h3, visitedRows_of_no_sentinel c2 h4]
  exact ((hperm.filterMap rowCells).map _).filter _

/-- Claim C18. For two tables of three-cell rows without sentinel row whose rows are a
rearrangement of each other, the extraction fails on both or succeeds on both with the
same sorted key list, `generate` returns an extraction error on one exactly when it does
on the other, and succeeds on one exactly when it does on the other if the formatter and
the writer do not fail. The reverse-index sequences may differ: for the table with the
rows `run`, `env` and the table with the rows `env`, `run` the sequences of `always` are
`run`, `env` and `env`, `run`. -/
theorem row_order_spec {ω : Type} (L : Lib) (write : ω → Str → ω × Bool) (out : ω)
    (src1 src2 : List Block) (T1 T2 : Table)
    (hp1 : parseContextAvailabilityTable src1 = some T1)
    (hp2 : parseContextAvailabilityTable src2 = some T2)
    (hperm : List.Perm T1.children T2.children)
    (h3 : ∀ c ∈ T1.children, ∀ cs, rowCells c = some cs →
      cs.length = 3 ∧ cs.head? ≠ some elseDirective) :
    ((∃ e1 e2, buildIndex L T1 = .error e1 ∧ buildIndex L T2 = .error e2) ∨
      (∃ a1 a2, buildIndex L T1 = .ok a1 ∧ buildIndex L T2 = .ok a2 ∧ a1.keys = a2.keys)) ∧
    ((∃ e, (generate L write src1 out).1 = .error e ∧ isExtractionError e = true) ↔
      (∃ e, (generate L write src2 out).1 = .error e ∧ isExtractionError e = true)) ∧
    ((∀ a, L.formatSource a ≠ none) → (∀ o s, (write o s).2 = true) →
      ((generate L write src1 out).1 = .ok () ↔ (generate L write src2 out).1 = .ok ())) ∧
    (∃ a1 a2, buildIndex L orderTable = .ok a1 ∧ buildIndex L orderTableSwapped = .ok a2 ∧
      List.Perm orderTable.children orderTableSwapped.children ∧
      a1.keys = a2.keys ∧
      lookupFunc a1.funcs "always".toList = ["run".toList, "env".toList] ∧
      lookupFunc a2.funcs "always".toList = ["env".toList, "run".toList]) := by
  have h4 : ∀ c ∈ T2.children, ∀ cs, rowCells c = some cs →
      cs.length = 3 ∧ cs.head? ≠ some elseDirective :=
    fun c hc => h3 c (hperm.mem_iff.2 hc)
  have hrows := hperm.filterMap rowCells
  have hiff : (∃ art, buildIndex L T1 = .ok art) ↔ (∃ art, buildIndex L T2 = .ok art) := by
    rw [buildIndex_ok_iff_clean L T1 h3, buildIndex_ok_iff_clean L T2 h4]
    constructor
    · intro h cs hcs
      exact h cs (hrows.mem_iff.2 hcs)
    · intro h cs hcs
      exact h cs (hrows.mem_iff.1 hcs)
  have hmain : (∃ e1 e2, buildIndex L T1 = .error e1 ∧ buildIndex L T2 = .error e2) ∨
      (∃ a1 a2, buildIndex L T1 = .ok a1 ∧ buildIndex L T2 = .ok a2 ∧
        a1.keys = a2.keys) := by
    cases hb1 : buildIndex L T1 with
    | error e1 =>
      cases hb2 : buildIndex L T2 with
      | error e2 => exact Or.inl ⟨e1, e2, rfl, rfl⟩
      | ok a2 =>
        obtain ⟨a1, ha1⟩ := hiff.2 ⟨a2, hb2⟩
        rw [hb1] at ha1
        cases ha1
    | ok a1 =>
      obtain ⟨a2, hb2⟩ := hiff.1 ⟨a1, hb1⟩
      refine Or.inr ⟨a1, a2, rfl, hb2, ?_⟩
      rw [buildIndex_keys L T1 a1 hb1, buildIndex_keys L T2 a2 hb2, acceptedRows_keys,
        acceptedRows_keys]
      exact sortStrings_eq_of_perm
        (acceptedKeys_perm L hperm (fun c hc cs h => (h3 c hc cs h).2))
  refine ⟨hmain, ?_, ?_, ?_⟩
  · rcases hmain with ⟨e1, e2, hb1, hb2⟩ | ⟨a1, a2, hb1, hb2, _⟩
    · have hg1 := generate_of_buildIndex_error L write hp1 hb1 out
      have hg2 := generate_of_buildIndex_error L write hp2 hb2 out
      exact ⟨fun _ => ⟨e2, by rw [hg2], buildIndex_error_kind L T2 e2 hb2⟩,
        fun _ => ⟨e1, by rw [hg1], buildIndex_error_kind L T1 e1 hb1⟩⟩
    · have hno : ∀ (src : List Block) (T : Table) (a : Artifact),
          parseContextAvailabilityTable src = some T → buildIndex L T = .ok a →
          ¬ ∃ e, (generate L write src out).1 = .error e ∧ isExtractionError e = true := by
        intro src T a hp hb
        rintro ⟨e, he, hk⟩
        rcases generate_of_buildIndex_ok L write hp hb out with h | h | h
        · rw [h] at he; cases he
        · rw [h] at he
          simp only [Except.error.injEq] at he
          subst he
          cases hk
        · rw [h] at he
          simp only [Except.error.injEq] at he
          subst he
          cases hk
      exact ⟨fun h => absurd h (hno src1 T1 a1 hp1 hb1),
        fun h => absurd h (hno src2 T2 a2 hp2 hb2)⟩
  · intro hfmt hw
    rcases hmain with ⟨e1, e2, hb1, hb2⟩ | ⟨a1, a2, hb1, hb2, _⟩
    · have hg1 := generate_of_buildIndex_error L write hp1 hb1 out
      have hg2 := generate_of_buildIndex_error L write hp2 hb2 out
      rw [hg1, hg2]
      constructor <;> intro h <;> cases h
    · have hg1 := generate_ok_of_total L write hp1 hb1 out hfmt hw
      have hg2 := generate_ok_of_total L write hp2 hb2 out hfmt hw
      exact ⟨fun _ => hg2, fun _ => hg1⟩
  · refine ⟨_, _, rfl, rfl, ?_, rfl, rfl, rfl⟩
    exact List.Perm.cons _ (List.Perm.swap _ _ _)

/-- Witness for claim C18: the table with the rows `run`, `env` and the table with the
rows `env`, `run`. -/
theorem row_order_spec_witness :
    (generate asciiLib recordWrite [.heading 3 targetHeading, .table orderTable] []).1 =
        .ok () ↔
      (generate asciiLib recordWrite
        [.heading 3 targetHeading, .table orderTableSwapped] []).1 = .ok () :=
  (row_order_spec asciiLib recordWrite []
    [.heading 3 targetHeading, .table orderTable]
    [.heading 3 targetHeading, .table orderTableSwapped] orderTable orderTableSwapped
    rfl rfl (List.Perm.cons _ (List.Perm.swap _ _ _))
    (by
      intro c hc cs h
      simp only [orderTable, List.mem_cons, List.mem_singleton, List.not_mem_nil,
        or_false] at hc
      rcases hc with hc | hc | hc <;> subst hc
      · cases h
      · cases h; decide
      · cases h; decide)).2.2.1 (by intro a h; cases h) (by intro o s; rfl)

/-! ## Consistency of the three structures -/

/-- Claim C20. When `generate` succeeds, every key of a reverse-index sequence is in the
sorted key list and is the key of a case entry whose special functions contain the
function name, no reverse-index sequence is empty, and there are as many case entries as
keys in the sorted key list. -/
theorem artifact_consistent {ω : Type} (L : Lib) (write : ω → Str → ω × Bool)
    (out : ω) (src : List Block) (T : Table)
    (hp : parseContextAvailabilityTable src = some T)
    (hgen : (generate L write src out).1 = .ok ()) :
    ∃ art, buildIndex L T = .ok art ∧
      (∀ p ∈ art.funcs, ∀ k ∈ p.2,
        k ∈ art.keys ∧ ∃ e ∈ art.cases, e.key = k ∧ p.1 ∈ e.specialFunctions) ∧
      (∀ p ∈ art.funcs, p.2 ≠ []) ∧
      art.cases.length = art.keys.length := by
  obtain ⟨art, hb, _⟩ := generate_ok_artifact L write hp out hgen
  have hperm : List.Perm art.keys (acceptedKeys L T.children) := by
    rw [buildIndex_keys L T art hb, acceptedRows_keys]
    exact sortStrings_perm _
  have hck := buildIndex_case_keys L T art hb
  refine ⟨art, hb, ?_, buildIndex_funcs_nonempty L T art hb, ?_⟩
  · intro p hpm k hk
    have hl := lookupFunc_of_mem art.funcs (buildIndex_funcNames_nodup L T art hb) p hpm
    rw [← hl] at hk
    obtain ⟨e, he, h1, h2⟩ := buildIndex_funcs_mem L T art hb p.1 k hk
    refine ⟨?_, e, he, h1, h2⟩
    rw [hperm.mem_iff, ← hck, ← h1]
    exact List.mem_map_of_mem (fun e => e.key) he
  · rw [hperm.length_eq, ← hck, List.length_map]

/-- Witness for claim C20: the table with two rows that have the same key. -/
theorem artifact_consistent_witness :
    ∃ art, buildIndex asciiLib duplicateKeyTable = .ok art ∧
      (∀ p ∈ art.funcs, ∀ k ∈ p.2,
        k ∈ art.keys ∧ ∃ e ∈ art.cases, e.key = k ∧ p.1 ∈ e.specialFunctions) ∧
      (∀ p ∈ art.funcs, p.2 ≠ []) ∧
      art.cases.length = art.keys.length :=
  artifact_consistent asciiLib recordWrite []
    [.heading 3 targetHeading, .table duplicateKeyTable] duplicateKeyTable rfl rfl

/-! ## Placeholder spans -/

theorem takeWhile_body (body rest : Str) (h : '%' ∉ body) :
    (body ++ '%' :: rest).takeWhile (fun c => c != '%') = body := by
  induction body with
  | nil => simp
  | cons c body ih =>
    have h1 : c ≠ '%' ∧ '%' ∉ body := by
      simp only [List.mem_cons, not_or] at h
      exact ⟨fun e => h.1 e.symm, h.2⟩
    have h2 : (c != '%') = true := bne_iff_ne.2 h1.1
    rw [List.cons_append, List.takeWhile_cons, h2, if_pos rfl, ih h1.2]

theorem dropWhile_body (body rest : Str) (h : '%' ∉ body) :
    (body ++ '%' :: rest).dropWhile (fun c => c != '%') = '%' :: rest := by
  induction body with
  | nil => simp
  | cons c body ih =>
    have h1 : c ≠ '%' ∧ '%' ∉ body := by
      simp only [List.mem_cons, not_or] at h
      exact ⟨fun e => h.1 e.symm, h.2⟩
    have h2 : (c != '%') = true := bne_iff_ne.2 h1.1
    rw [List.cons_append, List.dropWhile_cons, h2, if_pos rfl, ih h1.2]

theorem matchPlaceholder_span (body rest : Str) (hne : body ≠ []) (h : '%' ∉ body) :
    matchPlaceholder (openMarker ++ body ++ closeMarker ++ rest) =
      some (body.length + 4) := by
  have e : openMarker ++ body ++ closeMarker ++ rest =
      '{' :: '%' :: (body ++ '%' :: '}' :: rest) := by
    simp [openMarker, closeMarker]
  rw [e]
  unfold matchPlaceholder
  simp only [takeWhile_body body _ h, dropWhile_body body _ h]
  cases body with
  | nil => exact absurd rfl hne
  | cons c body => rfl

theorem matchPlaceholder_of_ne (c : Char) (rest : Str) (h : c ≠ '{') :
    matchPlaceholder (c :: rest) = none := by
  unfold matchPlaceholder
  split
  · rename_i heq
    simp only [List.cons.injEq] at heq
    exact absurd heq.1 h
  · rfl

theorem replaceFrom_skip (xs ys : Str) :
    replaceFrom xs.length (xs ++ ys) = replaceFrom 0 ys := by
  induction xs with
  | nil => rfl
  | cons x xs ih =>
    rw [List.length_cons, List.cons_append]
    show replaceFrom xs.length (xs ++ ys) = _
    exact ih

/-- A span at the start of the text is removed and the scan goes on after it. -/
theorem replacePlaceholders_span (body rest : Str) (hne : body ≠ []) (h : '%' ∉ body) :
    replacePlaceholders (openMarker ++ body ++ closeMarker ++ rest) =
      replacePlaceholders rest := by
  unfold replacePlaceholders
  have hm := matchPlaceholder_span body rest hne h
  have e : openMarker ++ body ++ closeMarker ++ rest =
      '{' :: (('%' :: (body ++ closeMarker)) ++ rest) := by
    simp [openMarker, closeMarker]
  rw [e] at hm ⊢
  have hstep : replaceFrom 0 ('{' :: (('%' :: (body ++ closeMarker)) ++ rest)) =
      replaceFrom (body.length + 4 - 1) (('%' :: (body ++ closeMarker)) ++ rest) := by
    show (match matchPlaceholder ('{' :: (('%' :: (body ++ closeMarker)) ++ rest)) with
      | some n => replaceFrom (n - 1) (('%' :: (body ++ closeMarker)) ++ rest)
      | none => '{' :: replaceFrom 0 (('%' :: (body ++ closeMarker)) ++ rest)) = _
    rw [hm]
  rw [hstep]
  have hl : body.length + 4 - 1 = ('%' :: (body ++ closeMarker)).length := by
    simp [closeMarker]
  rw [hl]
  exact replaceFrom_skip _ rest

/-- A character at which no span starts is kept. -/
theorem replacePlaceholders_keep (c : Char) (rest : Str)
    (h : matchPlaceholder (c :: rest) = none) :
    replacePlaceholders (c :: rest) = c :: replacePlaceholders rest := by
  unfold replacePlaceholders
  show (match matchPlaceholder (c :: rest) with
    | some n => replaceFrom (n - 1) rest
    | none => c :: replaceFrom 0 rest) = _
  rw [h]

theorem replacePlaceholders_plain (piece rest : Str) (h : '{' ∉ piece) :
    replacePlaceholders (piece ++ rest) = piece ++ replacePlaceholders rest := by
  induction piece with
  | nil => rfl
  | cons c piece ih =>
    have h1 : c ≠ '{' ∧ '{' ∉ piece := by
      simp only [List.mem_cons, not_or] at h
      exact ⟨fun e => h.1 e.symm, h.2⟩
    rw [List.cons_append, replacePlaceholders_keep c _ (matchPlaceholder_of_ne c _ h1.1),
      ih h1.2]
    rfl

theorem replacePlaceholders_of_plain (s : Str) (h : '{' ∉ s) :
    replacePlaceholders s = s := by
  have h1 := replacePlaceholders_plain s [] h
  rw [List.append_nil] at h1
  rw [h1]
  show s ++ [] = s
  exact List.append_nil s

theorem replacePlaceholders_segments (segs : List (Str × Str)) (last : Str)
    (hsegs : ∀ p ∈ segs, '{' ∉ p.1 ∧ p.2 ≠ [] ∧ '%' ∉ p.2) (hlast : '{' ∉ last) :
    replacePlaceholders (renderSegments segs last) = plainOfSegments segs last := by
  induction segs with
  | nil => exact replacePlaceholders_of_plain last hlast
  | cons p segs ih =>
    obtain ⟨piece, body⟩ := p
    obtain ⟨h1, h2, h3⟩ := hsegs (piece, body) (List.mem_cons_self _ _)
    have e : renderSegments ((piece, body) :: segs) last =
        piece ++ (openMarker ++ body ++ closeMarker ++ renderSegments segs last) := by
      simp [renderSegments]
    rw [e, replacePlaceholders_plain piece _ h1, replacePlaceholders_span body _ h2 h3,
      ih (fun q hq => hsegs q (List.mem_cons_of_mem _ hq))]
    rfl

theorem plainOfSegments_no_brace (segs : List (Str × Str)) (last : Str)
    (hsegs : ∀ p ∈ segs, '{' ∉ p.1 ∧ p.2 ≠ [] ∧ '%' ∉ p.2) (hlast : '{' ∉ last) :
    '{' ∉ plainOfSegments segs last := by
  induction segs with
  | nil => exact hlast
  | cons p segs ih =>
    obtain ⟨piece, body⟩ := p
    obtain ⟨h1, _, _⟩ := hsegs (piece, body) (List.mem_cons_self _ _)
    show '{' ∉ piece ++ plainOfSegments segs last
    rw [List.mem_append, not_or]
    exact ⟨h1, ih (fun q hq => hsegs q (List.mem_cons_of_mem _ hq))⟩

theorem brace_mem_of_hasSpan {s : Str} (h : HasSpan s) : '{' ∈ s := by
  obtain ⟨a, body, b, _, _, e⟩ := h
  rw [e]
  simp [openMarker]

theorem takeWhile_no_percent (rest : Str) :
    '%' ∉ rest.takeWhile (fun c => c != '%') := by
  intro h
  have h1 := List.mem_takeWhile_imp h
  simp at h1

/-- The matcher accepts a text only if it starts with a span. -/
theorem startsWithSpan_of_match (s : Str) (n : Nat) (h : matchPlaceholder s = some n) :
    StartsWithSpan s := by
  unfold matchPlaceholder at h
  split at h
  · rename_i rest
    simp only at h
    split at h
    · rename_i x1 x2 b bs tail hb hd
      have hnp := takeWhile_no_percent rest
      have e := List.takeWhile_append_dropWhile (fun c => c != '%') rest
      rw [hd] at e
      generalize List.takeWhile (fun c => c != '%') rest = body at hb hnp e h
      refine ⟨body, tail, ?_, hnp, ?_⟩
      · rw [hb]
        exact List.cons_ne_nil _ _
      · rw [← e]
        simp [openMarker, closeMarker]
    · cases h
  · cases h

theorem matchPlaceholder_none_iff (s : Str) :
    matchPlaceholder s = none ↔ ¬ StartsWithSpan s := by
  constructor
  · intro h ⟨body, rest, hne, hp, e⟩
    rw [e, matchPlaceholder_span body rest hne hp] at h
    cases h
  · intro h
    cases hm : matchPlaceholder s with
    | none => rfl
    | some n => exact absurd (startsWithSpan_of_match s n hm) h

theorem unescapeString_of_no_amp (L : Lib) (s : Str) (h : '&' ∉ s) :
    unescapeString L s = s := by
  unfold unescapeString
  have h1 : s.contains '&' = false := by
    cases hc : s.contains '&' with
    | false => rfl
    | true => exact absurd (List.mem_of_elem_eq_true hc) h
  rw [h1]
  rfl

/-- Claim C19, counterexample: the cell does not contain the else directive; the scan
removes the inner placeholder and the text around it forms a span, which is returned. -/
theorem nested_placeholder_remains :
    containsSub nestedPlaceholderCell elseDirective = false ∧
    (∀ L : Lib, stripAndUnescape L nestedPlaceholderCell = .ok "\x7b% b %\x7d".toList) ∧
    HasSpan "\x7b% b %\x7d".toList :=
  ⟨by decide, fun _ => rfl, ⟨[], " b ".toList, [], by decide, by decide, by decide⟩⟩

theorem hasSpan_of_startsWithSpan {s : Str} (h : StartsWithSpan s) : HasSpan s := by
  obtain ⟨body, rest, h1, h2, e⟩ := h
  exact ⟨[], body, rest, h1, h2, by rw [e]; rfl⟩

theorem hasSpan_cons {c : Char} {s : Str} (h : HasSpan s) : HasSpan (c :: s) := by
  obtain ⟨a, body, rest, h1, h2, e⟩ := h
  exact ⟨c :: a, body, rest, h1, h2, by rw [e]; rfl⟩

theorem replacePlaceholders_keep_of_no_span (c : Char) (rest : Str)
    (h : ¬ StartsWithSpan (c :: rest)) :
    replacePlaceholders (c :: rest) = c :: replacePlaceholders rest :=
  replacePlaceholders_keep c rest ((matchPlaceholder_none_iff _).2 h)

/-- A text in which no span occurs is returned as it is. -/
theorem replacePlaceholders_of_no_span (s : Str) (h : ¬ HasSpan s) :
    replacePlaceholders s = s := by
  induction s with
  | nil => rfl
  | cons c rest ih =>
    rw [replacePlaceholders_keep_of_no_span c rest
      (fun hs => h (hasSpan_of_startsWithSpan hs)), ih (fun hs => h (hasSpan_cons hs))]

/-- Claim C19, amended: the sanitizer removes the spans found by one scan from left to
right and decodes the entities of what is left: a span at the start of the text is
removed and the scan goes on after it, a character at which no span starts is kept, and
a text in which no span occurs is left as it is; the empty body `{%%}` is not a span.
For a cell text without the else directive that is made of placeholder spans separated
by pieces without an opening brace, the text handed to the entity decoder is the text
outside the spans and contains no span; it is the sanitized text when it holds no `&`. -/
theorem placeholders_removed (L : Lib) (segs : List (Str × Str)) (last : Str)
    (hsegs : ∀ p ∈ segs, '{' ∉ p.1 ∧ p.2 ≠ [] ∧ '%' ∉ p.2) (hlast : '{' ∉ last)
    (helse : containsSub (renderSegments segs last) elseDirective = false) :
    replacePlaceholders (renderSegments segs last) = plainOfSegments segs last ∧
    ¬ HasSpan (plainOfSegments segs last) ∧
    stripAndUnescape L (renderSegments segs last) =
      .ok (unescapeString L (plainOfSegments segs last)) ∧
    ('&' ∉ plainOfSegments segs last →
      stripAndUnescape L (renderSegments segs last) = .ok (plainOfSegments segs last)) ∧
    (∀ s : Str, containsSub s elseDirective = false →
      stripAndUnescape L s = .ok (unescapeString L (replacePlaceholders s))) ∧
    (∀ body rest : Str, body ≠ [] → '%' ∉ body →
      replacePlaceholders (openMarker ++ body ++ closeMarker ++ rest) =
        replacePlaceholders rest) ∧
    (∀ (c : Char) (rest : Str), ¬ StartsWithSpan (c :: rest) →
      replacePlaceholders (c :: rest) = c :: replacePlaceholders rest) ∧
    replacePlaceholders [] = [] ∧
    (∀ s : Str, ¬ HasSpan s → replacePlaceholders s = s) ∧
    replacePlaceholders "a\x7b%%\x7db".toList = "a\x7b%%\x7db".toList := by
  have h1 := replacePlaceholders_segments segs last hsegs hlast
  have h2 : stripAndUnescape L (renderSegments segs last) =
      .ok (unescapeString L (plainOfSegments segs last)) := by
    rw [stripAndUnescape_of_not_contains L helse, h1]
  refine ⟨h1, fun hs => plainOfSegments_no_brace segs last hsegs hlast
    (brace_mem_of_hasSpan hs), h2, fun hamp => ?_,
    fun s hs => stripAndUnescape_of_not_contains L hs, replacePlaceholders_span,
    replacePlaceholders_keep_of_no_span, rfl, replacePlaceholders_of_no_span, rfl⟩
  rw [h2, unescapeString_of_no_amp L _ hamp]

/-- Witness for claim C19: two placeholders around a key. -/
theorem placeholders_removed_witness :
    stripAndUnescape asciiLib
        "\x7b% ifversion x %\x7djobs.run\x7b% endif %\x7d".toList =
      .ok "jobs.run".toList :=
  (placeholders_removed asciiLib
    [([], " ifversion x ".toList), ("jobs.run".toList, " endif ".toList)] []
    (by
      intro p hp
      simp only [List.mem_cons, List.mem_singleton, List.not_mem_nil, or_false] at hp
      rcases hp with hp | hp <;> subst hp <;> decide)
    (by decide) (by decide)).2.2.2.1 (by decide)

/-! ## Records of the accepted rows -/

theorem getD_map_clean (L : Lib) (cs : List Str) (i : Nat) :
    (cs.map (clean L)).getD i [] = clean L (cs.getD i []) := by
  induction cs generalizing i with
  | nil => rfl
  | cons c rest ih =>
    cases i with
    | zero => rfl
    | succ i =>
      show (rest.map (clean L)).getD i [] = clean L (rest.getD i [])
      exact ih i

theorem mem_acceptedRows (L : Lib) (children : List TableChild) (r : List Str)
    (h : r ∈ acceptedRows L children) :
    ∃ cs ∈ visitedRows children, r = cs.map (clean L) := by
  unfold acceptedRows at h
  obtain ⟨cs, hcs, e⟩ := List.mem_map.1 (List.mem_filter.1 h).1
  exact ⟨cs, hcs, e.symm⟩

/-- Claim C10, amended: the sequence `split` returns is in ascending order, not
necessarily strict; it is empty for a blank cell and otherwise a rearrangement of the
lower-cased trimmed comma-separated pieces of the trimmed cell, so a token occurs in it
as many times as it is written in the cell. The contexts and the special functions of a
case entry are the sequences `split` returns on the sanitized second and third cell of a
visited three-cell row, whose sanitized first cell is the key. -/
theorem split_sorted_lowered (L : Lib) :
    (∀ text : Str, List.Sorted (fun a b : Str => a ≤ b) (split L text) ∧
      (trimSpace text = [] → split L text = []) ∧
      (trimSpace text ≠ [] →
        List.Perm (split L text)
          ((splitComma (trimSpace text)).map (fun s => toLower L (trimSpace s))) ∧
        ∀ tok, (split L text).count tok =
          ((splitComma (trimSpace text)).map (fun s => toLower L (trimSpace s))).count tok) ∧
      ∀ tok ∈ split L text,
        ∃ piece ∈ splitComma (trimSpace text), tok = toLower L (trimSpace piece)) ∧
    (∀ (T : Table) (art : Artifact), buildIndex L T = .ok art →
      art.cases = (acceptedRows L T.children).map (fun r =>
        ⟨r.getD 0 [], split L (r.getD 1 []), split L (r.getD 2 [])⟩) ∧
      ∀ entry ∈ art.cases, ∃ cs ∈ visitedRows T.children,
        cs.length = 3 ∧ entry.key = clean L (cs.getD 0 []) ∧
        entry.contexts = split L (clean L (cs.getD 1 [])) ∧
        entry.specialFunctions = split L (clean L (cs.getD 2 []))) := by
  constructor
  · intro text
    refine ⟨split_sorted L text, split_of_empty L, fun hne => ?_, split_mem L text⟩
    have hperm : List.Perm (split L text)
        ((splitComma (trimSpace text)).map (fun s => toLower L (trimSpace s))) := by
      rw [split_of_nonempty L hne]
      exact sortStrings_perm _
    exact ⟨hperm, fun tok => str_count_perm hperm tok⟩
  · intro T art h
    refine ⟨buildIndex_cases L T art h, ?_⟩
    intro entry hm
    rw [buildIndex_cases L T art h] at hm
    obtain ⟨r, hr, e⟩ := List.mem_map.1 hm
    obtain ⟨cs, hcs, hrc⟩ := mem_acceptedRows L T.children r hr
    refine ⟨cs, hcs, ((buildIndex_ok_fold L T art h).2 cs hcs).1, ?_, ?_, ?_⟩
    · rw [← e, hrc]
      exact getD_map_clean L cs 0
    · rw [← e, hrc]
      show split L ((cs.map (clean L)).getD 1 []) = _
      rw [getD_map_clean]
    · rw [← e, hrc]
      show split L ((cs.map (clean L)).getD 2 []) = _
      rw [getD_map_clean]

/-- Witness for claim C10: the cell that names `needs` twice gives a sequence with
`needs` twice. -/
theorem split_sorted_lowered_witness :
    trimSpace "needs, github, needs".toList ≠ [] ∧
      (split asciiLib "needs, github, needs".toList).count "needs".toList = 2 :=
  ⟨by decide,
    ((((split_sorted_lowered asciiLib).1 "needs, github, needs".toList).2.2.1
      (by decide)).2 "needs".toList).trans (by decide)⟩

end ContextAvailability
